import Mathlib

/-!
Verification of the route-planning core against its specification.

The repository's algorithmic core (spatial KD-tree index, multi-strategy
search engine, nearest-facility resolver, evaluation harness) is described
by the specification; the frontend (Vue components and the API composable)
is present as source.  Coordinates and edge weights are modelled in exact
scaled-integer arithmetic (the algorithms only add, square and compare
coordinates and weights, so the embedding is faithful under any fixed
decimal scaling); the backend core components are modelled from the
specification text, as noted on each definition.
-/

namespace RoutePlanning

/-- Indexed point of the spatial index: a vertex id with WGS84 degree
coordinates (latitude, longitude).  Modelled from the spec: §3 Vertex /
§4.1 (Vertex id, coordinate) pairs. -/
structure Point where
  pid : Nat
  plat : ℤ
  plon : ℤ
deriving DecidableEq

/-- Modelled from the spec: the splitting axis of a KD node alternates by
depth; `true` means latitude, `false` longitude (§4.1 build algorithm). -/
def coordA (ax : Bool) (p : Point) : ℤ :=
  if ax then p.plat else p.plon

/-- Query coordinate: (latitude, longitude) in degrees. -/
abbrev Coord := ℤ × ℤ

/-- Axis coordinate of a query point. -/
def qcoord (ax : Bool) (q : Coord) : ℤ :=
  if ax then q.1 else q.2

/-- Planar squared Euclidean distance in (lat, lon) degree space between a
query coordinate and an indexed point.  Modelled from the spec: §4.1
"planar Euclidean distance in (lat, lon) space", squared-distance form as
used by the branch-and-bound query. -/
def dist2 (q : Coord) (p : Point) : ℤ :=
  (q.1 - p.plat) ^ 2 + (q.2 - p.plon) ^ 2

/-- Modelled from the spec: §3 KDNode — a node holds one point, a
splitting axis and exclusively-owned left/right subtrees. -/
inductive KDTree where
  | leaf : KDTree
  | node (pt : Point) (ax : Bool) (l r : KDTree) : KDTree
deriving DecidableEq

/-- All points stored in a KD-tree. -/
def KDTree.toList : KDTree → List Point
  | .leaf => []
  | .node pt _ l r => pt :: (l.toList ++ r.toList)

/-- Remove the first occurrence of a point from a list. -/
def removeFirst (a : Point) : List Point → List Point
  | [] => []
  | x :: xs => if x = a then xs else x :: removeFirst a xs

/-- Sort order on an axis, used for median selection (ties broken by input
order thanks to a stable sort). -/
def axisLE (ax : Bool) (a b : Point) : Prop :=
  coordA ax a ≤ coordA ax b

instance (ax : Bool) : DecidableRel (axisLE ax) := fun a b =>
  inferInstanceAs (Decidable (coordA ax a ≤ coordA ax b))

/-- Modelled from the spec: §4.1 build algorithm — recursive median split.
At depth `d` the axis is latitude when `d` is even; the median of the
current subset by the split axis (stable sort, ties by input order)
becomes the node's point; the left child holds the points strictly smaller
on that axis, the right child the points greater-or-equal (the median's
own occurrence removed).  A fuel parameter (any value at least the number
of points; see `build`) makes the recursion structural. -/
def buildFuel : Nat → List Point → Nat → KDTree
  | 0, _, _ => .leaf
  | _ + 1, [], _ => .leaf
  | fuel + 1, p :: ps, d =>
    let ax := decide (d % 2 = 0)
    let sorted := (p :: ps).insertionSort (axisLE ax)
    let med := sorted.getD (sorted.length / 2) p
    let lts := (p :: ps).filter (fun x => decide (coordA ax x < coordA ax med))
    let ges := removeFirst med
      ((p :: ps).filter (fun x => decide (coordA ax med ≤ coordA ax x)))
    .node med ax (buildFuel fuel lts (d + 1)) (buildFuel fuel ges (d + 1))

/-- SpatialIndex.build.  Modelled from the spec: §4.1 `build(points)`. -/
def build (pts : List Point) : KDTree :=
  buildFuel pts.length pts 0

/-- Challenge the current best candidate with a point: replace it when the
new point is strictly closer (so ties keep the earlier find). -/
def chal (q : Coord) (p : Point) : Option Point → Option Point
  | none => some p
  | some b => if dist2 q p < dist2 q b then some p else some b

/-- Decide whether the far subtree must also be searched: it is skipped
exactly when the squared axis distance to the splitting plane already
reaches the best squared distance (§4.1 query pruning). -/
def needFar (qa pa : ℤ) (q : Coord) : Option Point → Bool
  | none => true
  | some b => decide ((qa - pa) ^ 2 < dist2 q b)

/-- Modelled from the spec: §4.1 query algorithm — branch-and-bound
descent: visit the node's point, recurse into the subtree on the query's
side of the splitting plane first, then search the far subtree only if a
closer point could exist there. -/
def visit (q : Coord) : KDTree → Option Point → Option Point
  | .leaf, best => best
  | .node pt ax l r, best =>
    let qa := qcoord ax q
    let pa := coordA ax pt
    if qa < pa then
      let b1 := visit q l (chal q pt best)
      if needFar qa pa q b1 then visit q r b1 else b1
    else
      let b1 := visit q r (chal q pt best)
      if needFar qa pa q b1 then visit q l b1 else b1

/-- SpatialIndex.nearest.  Modelled from the spec: §4.1 — returns the
indexed point minimizing planar squared distance; `none` models the
EmptyIndex failure on an unbuilt/empty index. -/
def nearest (t : KDTree) (q : Coord) : Option Point :=
  visit q t none

/-- Vertex id returned by `nearest`. -/
def nearestId (t : KDTree) (q : Coord) : Option Nat :=
  (nearest t q).map Point.pid

/-- SpatialIndex.exhaustiveNearest.  Modelled from the spec: §4.1 baseline
comparison mode — scan every indexed point and keep the minimum (strict
improvement, so ties keep the earliest point in input order). -/
def exhaustiveNearest (q : Coord) (pts : List Point) : Option Point :=
  pts.foldl (fun b p => chal q p b) none

/-- Vertex id returned by the exhaustive scan. -/
def exhaustiveNearestId (q : Coord) (pts : List Point) : Option Nat :=
  (exhaustiveNearest q pts).map Point.pid

/-- Structural invariant of a KD-tree: left points are strictly smaller on
the node's axis, right points greater-or-equal, recursively. -/
def invKD : KDTree → Prop
  | .leaf => True
  | .node pt ax l r =>
      (∀ x ∈ l.toList, coordA ax x < coordA ax pt) ∧
      (∀ x ∈ r.toList, coordA ax pt ≤ coordA ax x) ∧ invKD l ∧ invKD r

/-- Graph vertex id (opaque stable identifier, §3). -/
abbrev VId := Nat

/-- Modelled from the spec: §3 Vertex — id plus degree coordinates. -/
structure Vertex where
  vid : VId
  vlat : ℤ
  vlon : ℤ
deriving DecidableEq

/-- Modelled from the spec: §3 Edge — ordered (source, target) pair with a
non-negative weight (directed graph semantics). -/
structure Edge where
  src : VId
  dst : VId
  w : ℤ
deriving DecidableEq

/-- Modelled from the spec: §3 Graph — vertex set plus adjacency from a
vertex to its outgoing edges. -/
structure Graph where
  vertices : List Vertex
  edges : List Edge
deriving DecidableEq

/-- The ids of the graph's vertices. -/
def Graph.ids (G : Graph) : List VId :=
  G.vertices.map Vertex.vid

/-- Outgoing edges of a vertex (the adjacency mapping of §3). -/
def Graph.nbrs (G : Graph) (v : VId) : List Edge :=
  G.edges.filter (fun e => decide (e.src = v))

/-- Modelled from the spec: §3 graph invariants — every edge's endpoints
exist in the vertex set, weights are non-negative, self-loops are
disallowed. -/
def Graph.WF (G : Graph) : Prop :=
  ∀ e ∈ G.edges, e.src ∈ G.ids ∧ e.dst ∈ G.ids ∧ 0 ≤ e.w ∧ e.src ≠ e.dst

instance (G : Graph) : Decidable G.WF :=
  inferInstanceAs (Decidable (∀ e ∈ G.edges, _ ∧ _ ∧ _ ∧ _))

/-- Valid path in a graph: `IsPath G s t p c` states that `p` lists the
vertices of a path from `s` to `t` whose edge weights sum to `c`
(§3 Edge / §4.2 path cost). -/
inductive IsPath (G : Graph) : VId → VId → List VId → ℤ → Prop where
  | single (v : VId) (hv : v ∈ G.ids) : IsPath G v v [v] 0
  | step {s u : VId} {p : List VId} {c : ℤ} (e : Edge)
      (hp : IsPath G s u p c) (he : e ∈ G.edges) (hsrc : e.src = u) :
      IsPath G s e.dst (p ++ [e.dst]) (c + e.w)

/-- Goal `t` is reachable from `s` in `G`. -/
def Reach (G : Graph) (s t : VId) : Prop :=
  ∃ p c, IsPath G s t p c

/-- Modelled from the spec: §3 SearchResult — success flag, vertex
sequence from start to goal (empty if unreachable), total path cost and
count of states expanded.  (The wall-clock duration field is untimed in
this embedding.) -/
structure SearchResult where
  success : Bool
  path : List VId
  cost : ℤ
  expansions : Nat
deriving DecidableEq

/-- A frontier entry: a candidate vertex together with the accumulated
path and cost that reached it (§4.2 frontier). -/
structure Entry where
  v : VId
  cost : ℤ
  path : List VId
deriving DecidableEq

/-- Frontier discipline of the generic traversal (§4.2): the priority key
extracts the ordering value of an entry (constant for FIFO/LIFO,
accumulated cost for UCS, cost plus heuristic for A*), `lifo` chooses
push-to-front (DFS) versus push-to-back, and `bound` is the IDDFS depth
bound. -/
structure LoopCfg where
  key : Entry → ℤ
  lifo : Bool
  bound : Option Nat

/-- Pop the first entry with minimal key (stable: equal priorities resolve
to insertion order, §4.2 tie-breaks).  With a constant key this pops the
head, so the same extraction realizes FIFO, LIFO and priority disciplines. -/
def popMin (key : Entry → ℤ) : List Entry → Option (Entry × List Entry)
  | [] => none
  | e :: es =>
    match popMin key es with
    | none => some (e, es)
    | some (e1, rest) =>
      if key e ≤ key e1 then some (e, es) else (some (e1, e :: rest))

/-- Depth-bound check for IDDFS (§4.2): an entry is expanded only when its
depth is below the current bound; other strategies have no bound. -/
def depthOK (bound : Option Nat) (e : Entry) : Bool :=
  match bound with
  | none => true
  | some b => decide (e.path.length - 1 < b)

/-- Successor entries generated when expanding a frontier entry: one new
entry per outgoing edge, extending the entry's path and cost (§4.2). -/
def pushList (G : Graph) (e : Entry) : List Entry :=
  (G.nbrs e.v).map (fun ed => ⟨ed.dst, e.cost + ed.w, e.path ++ [ed.dst]⟩)

/-- Modelled from the spec: §4.2 — the one generic "expand frontier until
goal or exhaustion" loop shared by all five strategies: pop the best
frontier entry, skip it if its vertex was already expanded (visited-state
policy), succeed if it is the goal, otherwise expand its outgoing edges.
The fuel argument makes the recursion structural; `searchFuel` always
suffices (`loopFuel_isSome`). -/
def loopFuel (G : Graph) (goal : VId) (cfg : LoopCfg) :
    Nat → List Entry → List VId → Nat → Option SearchResult
  | 0, _, _, _ => none
  | fuel + 1, frontier, visited, nExp =>
    match popMin cfg.key frontier with
    | none => some ⟨false, [], 0, nExp⟩
    | some (e, rest) =>
      if e.v ∈ visited then
        loopFuel G goal cfg fuel rest visited nExp
      else if e.v = goal then
        some ⟨true, e.path, e.cost, nExp⟩
      else if depthOK cfg.bound e then
        loopFuel G goal cfg fuel
          (if cfg.lifo then pushList G e ++ rest else rest ++ pushList G e)
          (e.v :: visited) (nExp + 1)
      else
        loopFuel G goal cfg fuel rest visited nExp

/-- Fuel that always suffices for the search loop (each expansion retires
one unexpanded vertex and each other iteration shortens the frontier). -/
def searchFuel (G : Graph) : Nat :=
  G.ids.dedup.length * (G.edges.length + 1) + 2

/-- Run the generic loop from a single-entry frontier holding the start
vertex with cost 0 (§4.2). -/
def runLoop (G : Graph) (start goal : VId) (cfg : LoopCfg) : SearchResult :=
  (loopFuel G goal cfg (searchFuel G) [⟨start, 0, [start]⟩] [] 0).getD
    ⟨false, [], 0, 0⟩

/-- LIFO depth-bounded configuration of the inner IDDFS iteration. -/
def iddfsCfg (b : Nat) : LoopCfg :=
  ⟨fun _ => 0, true, some b⟩

/-- Modelled from the spec: §4.2 IDDFS — repeated depth-bounded DFS with
increasing bound; `tries` counts the remaining bound increments before the
safety cap stops the iteration. -/
def iddfsGo (G : Graph) (start goal : VId) : Nat → Nat → SearchResult
  | b, 0 => runLoop G start goal (iddfsCfg b)
  | b, tries + 1 =>
    let r := runLoop G start goal (iddfsCfg b)
    if r.success then r else iddfsGo G start goal (b + 1) tries

/-- IDDFS driver: bounds grow from 0 up to the number of graph vertices
(the §4.2/§5 safety cap on bound growth). -/
def runIddfs (G : Graph) (start goal : VId) : SearchResult :=
  iddfsGo G start goal 0 G.ids.dedup.length

/-- The five search strategies (§4.2). -/
inductive Strategy where
  | bfs | dfs | ucs | iddfs | astar
deriving DecidableEq

/-- Heuristic names accepted for A* (§4.2 / §6). -/
def validHeuristics : List String :=
  ["haversine", "euclidean", "manhattan"]

/-- Core error kinds (§7). -/
inductive ApiError where
  | InvalidVertex | UnsupportedHeuristic | EmptyIndex | NoFacilitiesRegistered
deriving DecidableEq

instance {α β : Type} [DecidableEq α] [DecidableEq β] :
    DecidableEq (Except α β) := fun a b =>
  match a, b with
  | .ok x, .ok y =>
    if h : x = y then .isTrue (by rw [h]) else
      .isFalse (fun hh => h (by injection hh))
  | .error x, .error y =>
    if h : x = y then .isTrue (by rw [h]) else
      .isFalse (fun hh => h (by injection hh))
  | .ok _, .error _ => .isFalse (fun hh => Except.noConfusion hh)
  | .error _, .ok _ => .isFalse (fun hh => Except.noConfusion hh)

/-- Configuration of the generic loop for the non-IDDFS strategies; for
A* the heuristic estimates remaining cost from a vertex to the goal. -/
def cfgOf (strat : Strategy) (h : VId → ℤ) : LoopCfg :=
  match strat with
  | .bfs => ⟨fun _ => 0, false, none⟩
  | .dfs => ⟨fun _ => 0, true, none⟩
  | .ucs => ⟨fun e => e.cost, false, none⟩
  | .astar => ⟨fun e => e.cost + h e.v, false, none⟩
  | .iddfs => ⟨fun _ => 0, true, none⟩

/-- Modelled from the spec: §6 `SearchEngine.run(graph, start, goal,
strategy, heuristic?)`.  A start or goal id missing from the graph fails
with InvalidVertex before any search begins (§4.2/§7); the heuristic name
is required and validated only for `astar` (unknown or missing name fails
with UnsupportedHeuristic).  The numeric heuristic functions themselves
(haversine geodesic and the planar variants) involve real trigonometry
and square roots that exact arithmetic cannot express, so they are
abstracted as the environment `interp` mapping a heuristic name and a
(vertex, goal) pair to an estimate; §4.2 conditions A* optimality on the
estimates being admissible lower bounds. -/
def SearchEngine.run (interp : String → VId → VId → ℤ) (G : Graph)
    (start goal : VId) (strat : Strategy) (heuristic : Option String) :
    Except ApiError SearchResult :=
  if start ∈ G.ids ∧ goal ∈ G.ids then
    match strat with
    | .astar =>
      match heuristic with
      | some name =>
        if name ∈ validHeuristics then
          .ok (runLoop G start goal
            ⟨fun e => e.cost + interp name e.v goal, false, none⟩)
        else .error .UnsupportedHeuristic
      | none => .error .UnsupportedHeuristic
    | .iddfs => .ok (runIddfs G start goal)
    | s => .ok (runLoop G start goal (cfgOf s (fun _ => 0)))
  else .error .InvalidVertex

/-- Number of distinct graph vertices not yet expanded. -/
def unvisitedCount (G : Graph) (visited : List VId) : Nat :=
  (G.ids.dedup.filter (fun x => decide (x ∉ visited))).length

/-- Side condition on the depth bound: either the strategy is unbounded,
or (IDDFS at the safety cap) the bound equals the number of distinct
vertices and the frontier paths are duplicate-free walks through the
visited set, so the bound can never cut off an expandable entry. -/
def BoundOK (cfg : LoopCfg) (G : Graph) (frontier : List Entry)
    (visited : List VId) : Prop :=
  cfg.bound = none ∨
    (cfg.bound = some G.ids.dedup.length ∧ visited.Nodup ∧
      (∀ v ∈ visited, v ∈ G.ids) ∧
      ∀ e ∈ frontier, ∃ p1, e.path = p1 ++ [e.v] ∧ p1.Nodup ∧
        ∀ x ∈ p1, x ∈ visited)

/-- JSON-like values exchanged with the backend API (frontend source). -/
inductive JVal where
  | null
  | undef
  | num (n : ℤ)
  | str (s : String)
  | boolean (b : Bool)
deriving DecidableEq

/-- An HTTP request assembled by the useApi composable: endpoint, method
and an optional JSON body given as ordered key/value fields. -/
structure ApiRequest where
  endpoint : String
  method : String
  body : Option (List (String × JVal))
deriving DecidableEq

/-- The member set of the object returned by the useApi composable
(source: the return object of useApi, lines 98-118). -/
def useApiOps : List String :=
  ["loading", "error", "checkHealth", "loadMap", "getMapStats",
   "buildKdTree", "searchKdTree", "evaluateKdTree", "planRoute",
   "evaluateSearchAlgorithms", "registerHospitals", "findNearestHospital",
   "getEmergencyRoute", "getServiceAreas"]

/-- The function-valued operations among the useApi members. -/
def apiOperationNames : List String :=
  ["checkHealth", "loadMap", "getMapStats", "buildKdTree", "searchKdTree",
   "evaluateKdTree", "planRoute", "evaluateSearchAlgorithms",
   "registerHospitals", "findNearestHospital", "getEmergencyRoute",
   "getServiceAreas"]

/-- Endpoint of each useApi operation (source: useApi). -/
def operationEndpoint : String → String
  | "checkHealth" => "/health"
  | "loadMap" => "/map/load"
  | "getMapStats" => "/map/stats"
  | "buildKdTree" => "/kdtree/build"
  | "searchKdTree" => "/kdtree/search"
  | "evaluateKdTree" => "/kdtree/evaluate"
  | "planRoute" => "/route/plan"
  | "evaluateSearchAlgorithms" => "/route/evaluate"
  | "registerHospitals" => "/emergency/register-hospitals"
  | "findNearestHospital" => "/emergency/nearest-hospital"
  | "getEmergencyRoute" => "/emergency/route"
  | "getServiceAreas" => "/emergency/service-areas"
  | _ => ""

/-- Body of the planRoute request (source: useApi.planRoute): exactly the
fields start_lat, start_lon, goal_lat, goal_lon and algorithm. -/
def planRouteBody (startLat startLon goalLat goalLon : ℤ)
    (algorithm : String) : List (String × JVal) :=
  [("start_lat", .num startLat), ("start_lon", .num startLon),
   ("goal_lat", .num goalLat), ("goal_lon", .num goalLon),
   ("algorithm", .str algorithm)]

/-- registerHospitals request (source: useApi.registerHospitals): a single
`hospitals` parameter serialized as the whole JSON body. -/
def registerHospitalsReq (hospitals : JVal) : ApiRequest :=
  ⟨"/emergency/register-hospitals", "POST", some [("hospitals", hospitals)]⟩

/-- JavaScript call semantics for a one-parameter function: the first
argument is bound (undefined when absent) and any extra arguments are
ignored. -/
def jsCall1 {α : Type} (f : JVal → α) (args : List JVal) : α :=
  f (args.headD .undef)

/-- Request issued by EmergencyView.searchHospitals (source: the call
registerHospitals(null, searchDistance.value) — two arguments against the
one-parameter operation). -/
def searchHospitalsRequest (searchDistance : ℤ) : ApiRequest :=
  jsCall1 registerHospitalsReq [JVal.null, JVal.num searchDistance]

/-- State of the useApi composable's refs. -/
structure ApiState where
  loading : Bool
  errorMsg : Option String
deriving DecidableEq

/-- Outcome of the fetch performed by `request`: a network-level failure,
or an HTTP response with its ok flag, optional error field of the JSON
body, and parsed body. -/
inductive FetchOutcome where
  | netError (msg : String)
  | httpResponse (ok : Bool) (errorField : Option String) (body : JVal)

/-- The shared request function (source: useApi.request): loading is set
true and error cleared on entry; a network failure or a non-ok response
throws after recording the message in the error ref; an ok response
returns the parsed body; the finally block resets loading to false on
every exit. The endpoint only selects the URL, the response itself is
the `outcome` oracle. -/
def request (endpoint : String) (outcome : FetchOutcome) (st : ApiState) :
    ApiState × Except String JVal :=
  match outcome with
  | .netError m => (⟨false, some m⟩, .error m)
  | .httpResponse ok errF body =>
    if ok then (⟨false, none⟩, .ok body)
    else (⟨false, some (errF.getD "Request failed")⟩,
      .error (errF.getD "Request failed"))

/-- Every useApi operation executes through the shared `request` function
at its endpoint (source: each operation of useApi is a wrapper around
request). -/
def runOperation (name : String) (outcome : FetchOutcome) (st : ApiState) :
    ApiState × Except String JVal :=
  request (operationEndpoint name) outcome st

/-- Outcome of a member call on the api object. -/
inductive CallOutcome where
  | ok (v : JVal)
  | exn (msg : String)

/-- Member invocation on the useApi object: invoking a name that is not
among the returned members calls `undefined` and throws a TypeError
(JavaScript semantics). -/
def callApi (oracle : String → CallOutcome) (name : String) : CallOutcome :=
  if name ∈ useApiOps then oracle name
  else .exn ("api." ++ name ++ " is not a function")

/-- State of the Dashboard component embedded in VoronoiMap.vue. -/
structure DashboardState where
  loading : Bool
  errorMsg : Option String
  successMessage : Option String
  mapLoaded : Bool
  mapStats : Option JVal
  graphData : Option JVal
deriving DecidableEq

/-- The Dashboard loadMap method (source: VoronoiMap.vue lines 874-904):
guard on the address; call api.loadMap; on success set mapLoaded and
mapStats, call api.getGraphData(), store its result and set the success
message; a throw anywhere reaches the catch branch that records the error
message; the finally branch resets loading. -/
def dashboardLoadMap (oracle : String → CallOutcome) (mapAddress : String)
    (st : DashboardState) : DashboardState :=
  if mapAddress = "" then st
  else
    match callApi oracle "loadMap" with
    | .exn m => ⟨false, some ("Failed to load map: " ++ m), none,
        st.mapLoaded, st.mapStats, st.graphData⟩
    | .ok res =>
      match callApi oracle "getGraphData" with
      | .exn m => ⟨false, some ("Failed to load map: " ++ m), none,
          true, some res, st.graphData⟩
      | .ok gd => ⟨false, none, some "Map loaded successfully!",
          true, some res, some gd⟩

/-- Modelled from the spec: §3 Facility — id, coordinate and the id of
its snapped nearest graph vertex, fixed at registration time. -/
structure Facility where
  fid : Nat
  flat : ℤ
  flon : ℤ
  snapped : VId
deriving DecidableEq

/-- The graph's vertices as spatial-index points. -/
def graphPoints (G : Graph) : List Point :=
  G.vertices.map (fun v => ⟨v.vid, v.vlat, v.vlon⟩)

/-- Snap an arbitrary coordinate to its nearest graph vertex through the
road-network spatial index (glossary "Snap"). -/
def snapToGraph (G : Graph) (q : Coord) : Option VId :=
  (nearest (build (graphPoints G)) q).map Point.pid

/-- Modelled from the spec: §4.3 — registration snaps every facility
coordinate to its nearest graph vertex; the facility set is replaced
wholesale. -/
def registerFacilities (G : Graph) (coords : List (Nat × ℤ × ℤ)) :
    List Facility :=
  coords.filterMap (fun c =>
    (snapToGraph G (c.2.1, c.2.2)).map (fun v => ⟨c.1, c.2.1, c.2.2, v⟩))

/-- The registered facilities as points of the facility spatial index. -/
def facilityPoints (fs : List Facility) : List Point :=
  fs.map (fun f => ⟨f.fid, f.flat, f.flon⟩)

/-- Result of a nearest-facility resolution (§4.3): facility id, snapped
query vertex, snapped facility vertex and the SearchEngine route. -/
structure ResolveResult where
  facility : Nat
  queryVertex : VId
  facilityVertex : VId
  route : SearchResult
deriving DecidableEq

/-- Modelled from the spec: §4.3 resolve — select the nearest registered
facility through the facility spatial index (a planar degree-space
nearest-neighbor query), snap the query coordinate to the road network,
and delegate pathfinding between the two snapped vertices to the
SearchEngine with the caller-chosen strategy; an empty facility set fails
with NoFacilitiesRegistered. -/
def FacilityResolver.resolve (interp : String → VId → VId → ℤ) (G : Graph)
    (fs : List Facility) (q : Coord) (strat : Strategy)
    (heur : Option String) : Except ApiError ResolveResult :=
  match fs with
  | [] => .error .NoFacilitiesRegistered
  | _ :: _ =>
    match nearest (build (facilityPoints fs)) q, snapToGraph G q with
    | some fp, some qv =>
      match fs.find? (fun f => decide (f.fid = fp.pid)) with
      | some f =>
        match SearchEngine.run interp G qv f.snapped strat heur with
        | .ok r => .ok ⟨f.fid, qv, f.snapped, r⟩
        | .error e => .error e
      | none => .error .NoFacilitiesRegistered
    | _, _ => .error .EmptyIndex

/-- Two parallel road corridors, geometrically close but joined only by a
very expensive connector edge. -/
def cexGraph : Graph :=
  ⟨[⟨0, 0, 0⟩, ⟨1, 0, 100⟩, ⟨2, 20, 0⟩, ⟨3, 20, 100⟩],
   [⟨0, 1, 100⟩, ⟨1, 0, 100⟩, ⟨2, 3, 100⟩, ⟨3, 2, 100⟩,
    ⟨1, 3, 100000⟩, ⟨3, 1, 100000⟩]⟩

/-- Facility 1 sits on the far corridor right next to the query; facility
2 sits on the query's own corridor a little further away. -/
def cexFacilities : List Facility :=
  registerFacilities cexGraph [(1, 21, 0), (2, -1, 100)]

/-- Aggregate metrics of one strategy over an evaluation run (§4.4):
average route distance, average time, average expanded-node count. -/
structure StrategyMetrics where
  routeDistance : ℚ
  timeTaken : ℚ
  nodesExpanded : ℚ

/-- The five strategies in evaluation order. -/
def allStrategies : List Strategy :=
  [.bfs, .dfs, .ucs, .iddfs, .astar]

/-- The cost-optimal strategies (§4.2 optimality contracts): UCS and A*. -/
def isCostOptimal : Strategy → Bool
  | .ucs => true
  | .astar => true
  | _ => false

/-- Modelled from the spec: §4.4 — min-max normalization of a metric
value onto a 0-1 scale where lower is better (0 when all strategies tie
on the metric). -/
def normalize (v lo hi : ℚ) : ℚ :=
  if hi = lo then 0 else (v - lo) / (hi - lo)

/-- Smallest element of a metric-value list. -/
def loOf : List ℚ → ℚ
  | [] => 0
  | x :: xs => xs.foldl min x

/-- Largest element of a metric-value list. -/
def hiOf : List ℚ → ℚ
  | [] => 0
  | x :: xs => xs.foldl max x

/-- The values of one metric across all five strategies. -/
def metricVals (m : Strategy → StrategyMetrics)
    (f : StrategyMetrics → ℚ) : List ℚ :=
  allStrategies.map (fun s => f (m s))

/-- Normalized 0-1 score of a strategy on one metric. -/
def normScore (m : Strategy → StrategyMetrics)
    (f : StrategyMetrics → ℚ) (s : Strategy) : ℚ :=
  normalize (f (m s)) (loOf (metricVals m f)) (hiOf (metricVals m f))

/-- Modelled from the spec: §4.4 weighted composite score — route
distance weighted 0.5, time 0.3, expanded-node count 0.2, each metric
normalized to a 0-1 scale, lower is better. -/
def compositeScore (m : Strategy → StrategyMetrics) (s : Strategy) : ℚ :=
  (1 / 2) * normScore m StrategyMetrics.routeDistance s +
    (3 / 10) * normScore m StrategyMetrics.timeTaken s +
    (1 / 5) * normScore m StrategyMetrics.nodesExpanded s

/-- Modelled from the spec: §4.4 tie-break — a candidate displaces the
incumbent when its composite score is strictly smaller, or on an exact
tie when the candidate is cost-optimal and the incumbent is not. -/
def betterRec (m : Strategy → StrategyMetrics) (best cand : Strategy) :
    Strategy :=
  if compositeScore m cand < compositeScore m best then cand
  else if compositeScore m cand = compositeScore m best ∧
      isCostOptimal cand = true ∧ isCostOptimal best = false then cand
  else best

/-- Modelled from the spec: §4.4 — the overall recommended strategy is
the composite-score minimizer over the five strategies with the
cost-optimality tie-break. -/
def recommended (m : Strategy → StrategyMetrics) : Strategy :=
  [Strategy.dfs, .ucs, .iddfs, .astar].foldl (betterRec m) .bfs

theorem removeFirst_subset (a : Point) :
    ∀ l : List Point, ∀ x ∈ removeFirst a l, x ∈ l := by
  intro l
  induction l with
  | nil => intro x hx; simp [removeFirst] at hx
  | cons y ys ih =>
    intro x hx
    by_cases h : y = a
    · simp only [removeFirst, if_pos h] at hx
      exact List.mem_cons_of_mem _ hx
    · simp only [removeFirst, if_neg h, List.mem_cons] at hx
      rcases hx with h1 | h2
      · exact h1 ▸ List.mem_cons_self _ _
      · exact List.mem_cons_of_mem _ (ih x h2)

theorem length_removeFirst_of_mem {a : Point} :
    ∀ {l : List Point}, a ∈ l → (removeFirst a l).length = l.length - 1 := by
  intro l
  induction l with
  | nil => intro h; cases h
  | cons y ys ih =>
    intro h
    by_cases hy : y = a
    · simp [removeFirst, hy]
    · have hmem : a ∈ ys := by
        rcases List.mem_cons.mp h with h1 | h2
        · exact absurd h1.symm hy
        · exact h2
      have hys : ys ≠ [] := by
        intro hnil; rw [hnil] at hmem; cases hmem
      have hlen : 1 ≤ ys.length := by
        cases ys with
        | nil => exact absurd rfl hys
        | cons _ _ => simp
      simp only [removeFirst, if_neg hy, List.length_cons, ih hmem]
      omega

theorem mem_removeFirst_of_ne {a x : Point} (hx : x ≠ a) :
    ∀ {l : List Point}, x ∈ l → x ∈ removeFirst a l := by
  intro l
  induction l with
  | nil => intro h; cases h
  | cons y ys ih =>
    intro h
    by_cases hy : y = a
    · rcases List.mem_cons.mp h with h1 | h2
      · exact absurd (h1.trans hy) hx
      · simpa [removeFirst, hy] using h2
    · rcases List.mem_cons.mp h with h1 | h2
      · simp [removeFirst, hy, h1]
      · simp [removeFirst, hy, ih h2]

/-- Helper: an in-range `List.getD` access returns a member of the list. -/
theorem getD_mem_of_lt {l : List Point} {n : Nat} {d : Point}
    (h : n < l.length) : l.getD n d ∈ l := by
  induction l generalizing n with
  | nil => simp at h
  | cons x xs ih =>
    cases n with
    | zero => simp [List.getD]
    | succ m =>
      have hm : m < xs.length := by simpa using h
      simpa [List.getD] using Or.inr (ih hm)

theorem length_filter_lt {α : Type} {p : α → Bool} {a : α} :
    ∀ {l : List α}, a ∈ l → p a = false → (l.filter p).length < l.length := by
  intro l
  induction l with
  | nil => intro h; cases h
  | cons y ys ih =>
    intro ha hpa
    rcases List.mem_cons.mp ha with h1 | h2
    · subst h1
      simp only [List.filter_cons, hpa, List.length_cons]
      exact Nat.lt_succ_of_le (List.length_filter_le p ys)
    · by_cases hy : p y
      · simpa [List.filter_cons, hy] using ih h2 hpa
      · simp only [List.filter_cons, Bool.not_eq_true] at hy
        simp only [List.filter_cons, hy, List.length_cons]
        exact Nat.lt_succ_of_lt (ih h2 hpa)

/-- The median chosen by `buildFuel` is one of the input points. -/
theorem median_mem (ax : Bool) (p : Point) (ps : List Point) :
    ((p :: ps).insertionSort (axisLE ax)).getD
      (((p :: ps).insertionSort (axisLE ax)).length / 2) p ∈ p :: ps := by
  have hperm := List.perm_insertionSort (axisLE ax) (p :: ps)
  have hlen : ((p :: ps).insertionSort (axisLE ax)).length = ps.length + 1 := by
    simpa using hperm.length_eq
  have hlt : ((p :: ps).insertionSort (axisLE ax)).length / 2 <
      ((p :: ps).insertionSort (axisLE ax)).length := by
    rw [hlen]; omega
  exact hperm.mem_iff.mp (getD_mem_of_lt hlt)

theorem buildFuel_mem : ∀ (fuel : Nat) (pts : List Point) (d : Nat),
    pts.length ≤ fuel → ∀ x, x ∈ (buildFuel fuel pts d).toList ↔ x ∈ pts := by
  intro fuel
  induction fuel with
  | zero =>
    intro pts d hle x
    have : pts = [] := List.length_eq_zero.mp (Nat.le_zero.mp hle)
    subst this
    simp [buildFuel, KDTree.toList]
  | succ n ih =>
    intro pts d hle x
    cases pts with
    | nil => simp [buildFuel, KDTree.toList]
    | cons p ps =>
      simp only [buildFuel, KDTree.toList]
      set ax := decide (d % 2 = 0) with hax
      set sorted := (p :: ps).insertionSort (axisLE ax) with hsorted
      set med := sorted.getD (sorted.length / 2) p with hmed
      have hmedmem : med ∈ p :: ps := median_mem ax p ps
      set lts := (p :: ps).filter
        (fun x => decide (coordA ax x < coordA ax med)) with hlts
      set ges := removeFirst med
        ((p :: ps).filter (fun x => decide (coordA ax med ≤ coordA ax x))) with hges
      have hltslen : lts.length ≤ n := by
        have h2 := length_filter_lt (p := fun x => decide (coordA ax x < coordA ax med))
          hmedmem (by simp)
        rw [← hlts] at h2
        simp only [List.length_cons] at hle h2
        omega
      have hgemem : med ∈ (p :: ps).filter
          (fun x => decide (coordA ax med ≤ coordA ax x)) := by
        simp [List.mem_filter, hmedmem]
      have hgeslen : ges.length ≤ n := by
        rw [hges, length_removeFirst_of_mem hgemem]
        have h1 := List.length_filter_le
          (fun x => decide (coordA ax med ≤ coordA ax x)) (p :: ps)
        simp only [List.length_cons] at hle h1 ⊢
        omega
      rw [List.mem_cons, List.mem_append, ih lts (d + 1) hltslen x,
        ih ges (d + 1) hgeslen x]
      constructor
      · rintro (h1 | h2 | h3)
        · exact h1 ▸ hmedmem
        · exact List.mem_of_mem_filter h2
        · exact List.mem_of_mem_filter (removeFirst_subset med _ x h3)
      · intro hx
        by_cases hxm : x = med
        · exact Or.inl hxm
        · by_cases hcmp : coordA ax x < coordA ax med
          · exact Or.inr (Or.inl (by simp [hlts, List.mem_filter, hx, hcmp]))
          · refine Or.inr (Or.inr ?_)
            have hge : x ∈ (p :: ps).filter
                (fun y => decide (coordA ax med ≤ coordA ax y)) := by
              simp [List.mem_filter, hx, le_of_not_lt hcmp]
            exact mem_removeFirst_of_ne hxm hge

theorem buildFuel_inv : ∀ (fuel : Nat) (pts : List Point) (d : Nat),
    pts.length ≤ fuel → invKD (buildFuel fuel pts d) := by
  intro fuel
  induction fuel with
  | zero =>
    intro pts d hle
    have : pts = [] := List.length_eq_zero.mp (Nat.le_zero.mp hle)
    subst this
    simp [buildFuel, invKD]
  | succ n ih =>
    intro pts d hle
    cases pts with
    | nil => simp [buildFuel, invKD]
    | cons p ps =>
      simp only [buildFuel, invKD]
      set ax := decide (d % 2 = 0) with hax
      set sorted := (p :: ps).insertionSort (axisLE ax) with hsorted
      set med := sorted.getD (sorted.length / 2) p with hmed
      have hmedmem : med ∈ p :: ps := median_mem ax p ps
      set lts := (p :: ps).filter
        (fun x => decide (coordA ax x < coordA ax med)) with hlts
      set ges := removeFirst med
        ((p :: ps).filter (fun x => decide (coordA ax med ≤ coordA ax x))) with hges
      have hltslen : lts.length ≤ n := by
        have h2 := length_filter_lt (p := fun x => decide (coordA ax x < coordA ax med))
          hmedmem (by simp)
        rw [← hlts] at h2
        simp only [List.length_cons] at hle h2
        omega
      have hgemem : med ∈ (p :: ps).filter
          (fun x => decide (coordA ax med ≤ coordA ax x)) := by
        simp [List.mem_filter, hmedmem]
      have hgeslen : ges.length ≤ n := by
        rw [hges, length_removeFirst_of_mem hgemem]
        have h1 := List.length_filter_le
          (fun x => decide (coordA ax med ≤ coordA ax x)) (p :: ps)
        simp only [List.length_cons] at hle h1 ⊢
        omega
      refine ⟨?_, ?_, ih lts (d + 1) hltslen, ih ges (d + 1) hgeslen⟩
      · intro x hx
        have := (buildFuel_mem n lts (d + 1) hltslen x).mp hx
        have hf := List.mem_filter.mp this
        simpa using hf.2
      · intro x hx
        have := (buildFuel_mem n ges (d + 1) hgeslen x).mp hx
        have hf := List.mem_filter.mp (removeFirst_subset med _ x this)
        simpa using hf.2

theorem build_mem (pts : List Point) (x : Point) :
    x ∈ (build pts).toList ↔ x ∈ pts :=
  buildFuel_mem pts.length pts 0 le_rfl x

theorem build_inv (pts : List Point) : invKD (build pts) :=
  buildFuel_inv pts.length pts 0 le_rfl

theorem chal_shape {q : Coord} {p : Point} {b : Option Point} {c : Point}
    (h : chal q p b = some c) : c = p ∨ b = some c := by
  cases b with
  | none => simp [chal] at h; exact Or.inl h.symm
  | some b0 =>
    by_cases hlt : dist2 q p < dist2 q b0
    · simp [chal, hlt] at h; exact Or.inl h.symm
    · simp [chal, hlt] at h; exact Or.inr (by rw [h])

theorem chal_le_point {q : Coord} {p : Point} {b : Option Point} {c : Point}
    (h : chal q p b = some c) : dist2 q c ≤ dist2 q p := by
  cases b with
  | none => simp [chal] at h; rw [← h]
  | some b0 =>
    by_cases hlt : dist2 q p < dist2 q b0
    · simp [chal, hlt] at h; rw [← h]
    · simp [chal, hlt] at h; rw [← h]; exact le_of_not_lt hlt

theorem chal_le_best {q : Coord} {p : Point} {b0 : Point} {c : Point}
    (h : chal q p (some b0) = some c) : dist2 q c ≤ dist2 q b0 := by
  by_cases hlt : dist2 q p < dist2 q b0
  · simp [chal, hlt] at h; rw [← h]; exact le_of_lt hlt
  · simp [chal, hlt] at h; rw [← h]

theorem chal_isSome (q : Coord) (p : Point) (b : Option Point) :
    ∃ c, chal q p b = some c := by
  cases b with
  | none => exact ⟨p, rfl⟩
  | some b0 =>
    by_cases hlt : dist2 q p < dist2 q b0
    · exact ⟨p, by simp [chal, hlt]⟩
    · exact ⟨b0, by simp [chal, hlt]⟩

theorem visit_some_of_some (q : Coord) :
    ∀ (t : KDTree) (b0 : Point), ∃ c, visit q t (some b0) = some c := by
  intro t
  induction t with
  | leaf => intro b0; exact ⟨b0, rfl⟩
  | node pt ax l r ihl ihr =>
    intro b0
    obtain ⟨c0, hc0⟩ := chal_isSome q pt (some b0)
    simp only [visit]
    by_cases hside : qcoord ax q < coordA ax pt
    · simp only [if_pos hside, hc0]
      obtain ⟨c1, hc1⟩ := ihl c0
      rw [hc1]
      by_cases hfar : needFar (qcoord ax q) (coordA ax pt) q (some c1)
      · simpa [hfar] using ihr c1
      · simp [hfar]
    · simp only [if_neg hside, hc0]
      obtain ⟨c1, hc1⟩ := ihr c0
      rw [hc1]
      by_cases hfar : needFar (qcoord ax q) (coordA ax pt) q (some c1)
      · simpa [hfar] using ihl c1
      · simp [hfar]

theorem visit_node_some (q : Coord) (pt : Point) (ax : Bool) (l r : KDTree)
    (b : Option Point) : ∃ c, visit q (.node pt ax l r) b = some c := by
  obtain ⟨c0, hc0⟩ := chal_isSome q pt b
  simp only [visit]
  by_cases hside : qcoord ax q < coordA ax pt
  · simp only [if_pos hside, hc0]
    obtain ⟨c1, hc1⟩ := visit_some_of_some q l c0
    rw [hc1]
    by_cases hfar : needFar (qcoord ax q) (coordA ax pt) q (some c1)
    · simpa [hfar] using visit_some_of_some q r c1
    · simp [hfar]
  · simp only [if_neg hside, hc0]
    obtain ⟨c1, hc1⟩ := visit_some_of_some q r c0
    rw [hc1]
    by_cases hfar : needFar (qcoord ax q) (coordA ax pt) q (some c1)
    · simpa [hfar] using visit_some_of_some q l c1
    · simp [hfar]

theorem visit_master (q : Coord) :
    ∀ (t : KDTree) (b : Option Point) (c : Point), visit q t b = some c →
      (c ∈ t.toList ∨ b = some c) ∧
        ∀ b0, b = some b0 → dist2 q c ≤ dist2 q b0 := by
  intro t
  induction t with
  | leaf =>
    intro b c h
    refine ⟨Or.inr h, ?_⟩
    intro b0 hb0
    rw [hb0] at h
    injection h with h
    rw [h]
  | node pt ax l r ihl ihr =>
    intro b c h
    obtain ⟨c0, hc0⟩ := chal_isSome q pt b
    simp only [visit, hc0] at h
    by_cases hside : qcoord ax q < coordA ax pt
    · rw [if_pos hside] at h
      obtain ⟨c1, hc1⟩ := visit_some_of_some q l c0
      rw [hc1] at h
      have hp1 := ihl (some c0) c1 hc1
      have hd1 : dist2 q c1 ≤ dist2 q c0 := hp1.2 c0 rfl
      have hnear : c1 ∈ l.toList ∨ c1 = c0 := by
        rcases hp1.1 with h1 | h2
        · exact Or.inl h1
        · exact Or.inr (by injection h2 with h2; exact h2.symm)
      by_cases hfar : needFar (qcoord ax q) (coordA ax pt) q (some c1) = true
      · rw [if_pos hfar] at h
        have hp2 := ihr (some c1) c h
        have hd2 : dist2 q c ≤ dist2 q c1 := hp2.2 c1 rfl
        have hfarm : c ∈ r.toList ∨ c = c1 := by
          rcases hp2.1 with h1 | h2
          · exact Or.inl h1
          · exact Or.inr (by injection h2 with h2; exact h2.symm)
        constructor
        · rcases hfarm with h1 | h2
          · exact Or.inl (by simp [KDTree.toList, h1])
          · subst h2
            rcases hnear_mem : hnear with h1 | h2
            · exact Or.inl (by simp [KDTree.toList, h1])
            · subst h2
              rcases chal_shape hc0 with h1 | h2
              · exact Or.inl (by simp [KDTree.toList, h1])
              · exact Or.inr h2
        · intro b0 hb0
          subst hb0
          have := chal_le_best hc0
          exact le_trans hd2 (le_trans hd1 this)
      · rw [if_neg hfar] at h
        injection h with h
        subst h
        constructor
        · rcases hnear with h1 | h2
          · exact Or.inl (by simp [KDTree.toList, h1])
          · subst h2
            rcases chal_shape hc0 with h1 | h2
            · exact Or.inl (by simp [KDTree.toList, h1])
            · exact Or.inr h2
        · intro b0 hb0
          subst hb0
          exact le_trans hd1 (chal_le_best hc0)
    · rw [if_neg hside] at h
      obtain ⟨c1, hc1⟩ := visit_some_of_some q r c0
      rw [hc1] at h
      have hp1 := ihr (some c0) c1 hc1
      have hd1 : dist2 q c1 ≤ dist2 q c0 := hp1.2 c0 rfl
      have hnear : c1 ∈ r.toList ∨ c1 = c0 := by
        rcases hp1.1 with h1 | h2
        · exact Or.inl h1
        · exact Or.inr (by injection h2 with h2; exact h2.symm)
      by_cases hfar : needFar (qcoord ax q) (coordA ax pt) q (some c1) = true
      · rw [if_pos hfar] at h
        have hp2 := ihl (some c1) c h
        have hd2 : dist2 q c ≤ dist2 q c1 := hp2.2 c1 rfl
        have hfarm : c ∈ l.toList ∨ c = c1 := by
          rcases hp2.1 with h1 | h2
          · exact Or.inl h1
          · exact Or.inr (by injection h2 with h2; exact h2.symm)
        constructor
        · rcases hfarm with h1 | h2
          · exact Or.inl (by simp [KDTree.toList, h1])
          · subst h2
            rcases hnear with h1 | h2
            · exact Or.inl (by simp [KDTree.toList, h1])
            · subst h2
              rcases chal_shape hc0 with h1 | h2
              · exact Or.inl (by simp [KDTree.toList, h1])
              · exact Or.inr h2
        · intro b0 hb0
          subst hb0
          exact le_trans hd2 (le_trans hd1 (chal_le_best hc0))
      · rw [if_neg hfar] at h
        injection h with h
        subst h
        constructor
        · rcases hnear with h1 | h2
          · exact Or.inl (by simp [KDTree.toList, h1])
          · subst h2
            rcases chal_shape hc0 with h1 | h2
            · exact Or.inl (by simp [KDTree.toList, h1])
            · exact Or.inr h2
        · intro b0 hb0
          subst hb0
          exact le_trans hd1 (chal_le_best hc0)

theorem axis_sq_le_dist2 (ax : Bool) (q : Coord) (x : Point) :
    (qcoord ax q - coordA ax x) ^ 2 ≤ dist2 q x := by
  cases ax <;> simp [qcoord, coordA, dist2] <;>
    nlinarith [sq_nonneg (q.1 - x.plat), sq_nonneg (q.2 - x.plon)]

theorem sq_away_right {qa pa xa : ℤ} (h1 : qa ≤ pa) (h2 : pa ≤ xa) :
    (qa - pa) ^ 2 ≤ (qa - xa) ^ 2 := by
  nlinarith [mul_nonneg (sub_nonneg.mpr h2) (show (0:ℤ) ≤ pa + xa - 2 * qa by linarith)]

theorem sq_away_left {qa pa xa : ℤ} (h1 : pa ≤ qa) (h2 : xa ≤ pa) :
    (qa - pa) ^ 2 ≤ (qa - xa) ^ 2 := by
  nlinarith [mul_nonneg (sub_nonneg.mpr h2) (show (0:ℤ) ≤ 2 * qa - pa - xa by linarith)]

theorem visit_min (q : Coord) :
    ∀ (t : KDTree), invKD t → ∀ (b : Option Point) (c : Point),
      visit q t b = some c → ∀ x ∈ t.toList, dist2 q c ≤ dist2 q x := by
  intro t
  induction t with
  | leaf => intro _ b c _ x hx; simp [KDTree.toList] at hx
  | node pt ax l r ihl ihr =>
    intro hinv b c h x hx
    simp only [invKD] at hinv
    obtain ⟨hl_lt, hr_ge, hinvl, hinvr⟩ := hinv
    obtain ⟨c0, hc0⟩ := chal_isSome q pt b
    simp only [visit, hc0] at h
    simp only [KDTree.toList, List.mem_cons, List.mem_append] at hx
    by_cases hside : qcoord ax q < coordA ax pt
    · rw [if_pos hside] at h
      obtain ⟨c1, hc1⟩ := visit_some_of_some q l c0
      rw [hc1] at h
      have hd1 : dist2 q c1 ≤ dist2 q c0 := (visit_master q l (some c0) c1 hc1).2 c0 rfl
      have hd1pt : dist2 q c1 ≤ dist2 q pt := le_trans hd1 (chal_le_point hc0)
      have hminl : ∀ y ∈ l.toList, dist2 q c1 ≤ dist2 q y :=
        fun y hy => ihl hinvl (some c0) c1 hc1 y hy
      by_cases hfar : needFar (qcoord ax q) (coordA ax pt) q (some c1) = true
      · rw [if_pos hfar] at h
        have hd2 : dist2 q c ≤ dist2 q c1 := (visit_master q r (some c1) c h).2 c1 rfl
        rcases hx with hx | hx | hx
        · rw [hx]; exact le_trans hd2 hd1pt
        · exact le_trans hd2 (hminl x hx)
        · exact ihr hinvr (some c1) c h x hx
      · rw [if_neg hfar] at h
        injection h with h
        subst h
        rcases hx with hx | hx | hx
        · rw [hx]; exact hd1pt
        · exact hminl x hx
        · have hnf : ¬ ((qcoord ax q - coordA ax pt) ^ 2 < dist2 q c1) := by
            simpa [needFar] using hfar
          have hb1 : dist2 q c1 ≤ (qcoord ax q - coordA ax pt) ^ 2 := le_of_not_lt hnf
          have hsq : (qcoord ax q - coordA ax pt) ^ 2 ≤ (qcoord ax q - coordA ax x) ^ 2 :=
            sq_away_right (le_of_lt hside) (hr_ge x hx)
          exact le_trans hb1 (le_trans hsq (axis_sq_le_dist2 ax q x))
    · rw [if_neg hside] at h
      obtain ⟨c1, hc1⟩ := visit_some_of_some q r c0
      rw [hc1] at h
      have hd1 : dist2 q c1 ≤ dist2 q c0 := (visit_master q r (some c0) c1 hc1).2 c0 rfl
      have hd1pt : dist2 q c1 ≤ dist2 q pt := le_trans hd1 (chal_le_point hc0)
      have hminr : ∀ y ∈ r.toList, dist2 q c1 ≤ dist2 q y :=
        fun y hy => ihr hinvr (some c0) c1 hc1 y hy
      by_cases hfar : needFar (qcoord ax q) (coordA ax pt) q (some c1) = true
      · rw [if_pos hfar] at h
        have hd2 : dist2 q c ≤ dist2 q c1 := (visit_master q l (some c1) c h).2 c1 rfl
        rcases hx with hx | hx | hx
        · rw [hx]; exact le_trans hd2 hd1pt
        · exact ihl hinvl (some c1) c h x hx
        · exact le_trans hd2 (hminr x hx)
      · rw [if_neg hfar] at h
        injection h with h
        subst h
        rcases hx with hx | hx | hx
        · rw [hx]; exact hd1pt
        · have hnf : ¬ ((qcoord ax q - coordA ax pt) ^ 2 < dist2 q c1) := by
            simpa [needFar] using hfar
          have hb1 : dist2 q c1 ≤ (qcoord ax q - coordA ax pt) ^ 2 := le_of_not_lt hnf
          have hsq : (qcoord ax q - coordA ax pt) ^ 2 ≤ (qcoord ax q - coordA ax x) ^ 2 :=
            sq_away_left (le_of_not_lt hside) (le_of_lt (hl_lt x hx))
          exact le_trans hb1 (le_trans hsq (axis_sq_le_dist2 ax q x))
        · exact hminr x hx

theorem visit_some_of_ne_leaf (q : Coord) {t : KDTree} (h : t ≠ .leaf)
    (b : Option Point) : ∃ c, visit q t b = some c := by
  cases t with
  | leaf => exact absurd rfl h
  | node pt ax l r => exact visit_node_some q pt ax l r b

theorem build_ne_leaf {pts : List Point} (hne : pts ≠ []) : build pts ≠ .leaf := by
  cases pts with
  | nil => exact absurd rfl hne
  | cons p ps =>
    intro h
    simp only [build, List.length_cons, buildFuel] at h
    exact KDTree.noConfusion h

theorem foldl_chal_master (q : Coord) :
    ∀ (pts : List Point) (b : Option Point) (c : Point),
      pts.foldl (fun b p => chal q p b) b = some c →
        (c ∈ pts ∨ b = some c) ∧ (∀ x ∈ pts, dist2 q c ≤ dist2 q x) ∧
          ∀ b0, b = some b0 → dist2 q c ≤ dist2 q b0 := by
  intro pts
  induction pts with
  | nil =>
    intro b c h
    simp only [List.foldl_nil] at h
    refine ⟨Or.inr h, by simp, ?_⟩
    intro b0 hb0
    rw [hb0] at h
    injection h with h
    rw [h]
  | cons p ps ih =>
    intro b c h
    simp only [List.foldl_cons] at h
    obtain ⟨c0, hc0⟩ := chal_isSome q p b
    rw [hc0] at h
    obtain ⟨hmem, hmin, hinit⟩ := ih (some c0) c h
    have hc0le : dist2 q c ≤ dist2 q c0 := hinit c0 rfl
    refine ⟨?_, ?_, ?_⟩
    · rcases hmem with h1 | h2
      · exact Or.inl (List.mem_cons_of_mem _ h1)
      · injection h2 with h2
        rcases chal_shape hc0 with h3 | h4
        · exact Or.inl (by rw [← h2, h3]; exact List.mem_cons_self _ _)
        · exact Or.inr (by rw [h4, h2])
    · intro x hx
      rcases List.mem_cons.mp hx with h1 | h2
      · rw [h1]; exact le_trans hc0le (chal_le_point hc0)
      · exact hmin x h2
    · intro b0 hb0
      rw [hb0] at hc0
      exact le_trans hc0le (chal_le_best hc0)

theorem foldl_chal_some (q : Coord) :
    ∀ (pts : List Point) (b0 : Point),
      ∃ c, pts.foldl (fun b p => chal q p b) (some b0) = some c := by
  intro pts
  induction pts with
  | nil => intro b0; exact ⟨b0, rfl⟩
  | cons p ps ih =>
    intro b0
    obtain ⟨c0, hc0⟩ := chal_isSome q p (some b0)
    simpa [List.foldl_cons, hc0] using ih c0

theorem exhaustive_spec (pts : List Point) (q : Coord) (hne : pts ≠ []) :
    ∃ e, exhaustiveNearest q pts = some e ∧ e ∈ pts ∧
      ∀ x ∈ pts, dist2 q e ≤ dist2 q x := by
  cases pts with
  | nil => exact absurd rfl hne
  | cons p ps =>
    obtain ⟨e, he⟩ : ∃ e, exhaustiveNearest q (p :: ps) = some e := by
      simpa [exhaustiveNearest, List.foldl_cons, chal] using foldl_chal_some q ps p
    obtain ⟨hmem, hmin, _⟩ := foldl_chal_master q (p :: ps) none e he
    refine ⟨e, he, ?_, hmin⟩
    rcases hmem with h1 | h2
    · exact h1
    · exact Option.noConfusion h2

theorem nearest_build_spec (pts : List Point) (q : Coord) (hne : pts ≠ []) :
    ∃ p, nearest (build pts) q = some p ∧ p ∈ pts ∧
      ∀ x ∈ pts, dist2 q p ≤ dist2 q x := by
  obtain ⟨c, hc⟩ := visit_some_of_ne_leaf q (build_ne_leaf hne) none
  refine ⟨c, hc, ?_, ?_⟩
  · rcases (visit_master q (build pts) none c hc).1 with h1 | h2
    · exact (build_mem pts c).mp h1
    · exact Option.noConfusion h2
  · intro x hx
    exact visit_min q (build pts) (build_inv pts) none c hc x ((build_mem pts x).mpr hx)

/-- C1 (counterexample): with the two points (id 1, (0,0)) and
(id 2, (2,0)) and the query (1,0) — both points at squared distance 1 —
the KD-tree branch-and-bound query answers id 2 (found first by descent
from the root) while the exhaustive left-to-right scan answers id 1, so
`nearest` does not always return exactly the same vertex id as
`exhaustiveNearest`. -/
theorem kdtree_exhaustive_id_mismatch :
    nearestId (build [⟨1, 0, 0⟩, ⟨2, 2, 0⟩]) (1, 0) = some 2 ∧
      exhaustiveNearestId (1, 0) [⟨1, 0, 0⟩, ⟨2, 2, 0⟩] = some 1 ∧
      some 2 ≠ some 1 := by
  refine ⟨?_, ?_, by simp⟩ <;> rfl

/-- C1 (amended): for every non-empty indexed point set and every query
coordinate, the KD-tree `nearest` query and the exhaustive linear scan
both return an indexed point at the minimal planar squared distance to
the query — their squared distances always agree — and they return the
same vertex id whenever the nearest point is unique (ties between
equidistant points may be resolved differently by the two traversal
orders). -/
theorem kdtree_matches_exhaustive (pts : List Point) (q : Coord)
    (hne : pts ≠ []) :
    ∃ p e, nearest (build pts) q = some p ∧ exhaustiveNearest q pts = some e ∧
      p ∈ pts ∧ e ∈ pts ∧ dist2 q p = dist2 q e ∧
      ((∀ x ∈ pts, dist2 q x = dist2 q p → x = p) → p.pid = e.pid) := by
  obtain ⟨p, hp, hpmem, hpmin⟩ := nearest_build_spec pts q hne
  obtain ⟨e, he, hemem, hemin⟩ := exhaustive_spec pts q hne
  have heq : dist2 q p = dist2 q e :=
    le_antisymm (hpmin e hemem) (hemin p hpmem)
  refine ⟨p, e, hp, he, hpmem, hemem, heq, ?_⟩
  intro huniq
  rw [huniq e hemem heq.symm]

/-- Witness for `kdtree_matches_exhaustive` at a concrete three-point
index and query. -/
theorem kdtree_matches_exhaustive_witness :
    ∃ p e,
      nearest (build [⟨5, 0, 0⟩, ⟨7, 3, 1⟩, ⟨9, 1, 4⟩]) (1, 1) = some p ∧
      exhaustiveNearest (1, 1) [⟨5, 0, 0⟩, ⟨7, 3, 1⟩, ⟨9, 1, 4⟩] = some e ∧
      p ∈ [⟨5, 0, 0⟩, ⟨7, 3, 1⟩, ⟨9, 1, 4⟩] ∧
      e ∈ [(⟨5, 0, 0⟩ : Point), ⟨7, 3, 1⟩, ⟨9, 1, 4⟩] ∧
      dist2 (1, 1) p = dist2 (1, 1) e ∧
      ((∀ x ∈ [(⟨5, 0, 0⟩ : Point), ⟨7, 3, 1⟩, ⟨9, 1, 4⟩],
          dist2 (1, 1) x = dist2 (1, 1) p → x = p) → p.pid = e.pid) :=
  kdtree_matches_exhaustive [⟨5, 0, 0⟩, ⟨7, 3, 1⟩, ⟨9, 1, 4⟩] (1, 1)
    (by simp)

theorem popMin_none_iff (key : Entry → ℤ) :
    ∀ l : List Entry, popMin key l = none ↔ l = [] := by
  intro l
  cases l with
  | nil => simp [popMin]
  | cons e es =>
    simp only [popMin]
    cases popMin key es with
    | none => simp
    | some pr =>
      obtain ⟨e1, rest⟩ := pr
      by_cases h : key e ≤ key e1 <;> simp [h]

theorem popMin_perm {key : Entry → ℤ} :
    ∀ {l : List Entry} {e : Entry} {rest : List Entry},
      popMin key l = some (e, rest) → l.Perm (e :: rest) := by
  intro l
  induction l with
  | nil => intro e rest h; simp [popMin] at h
  | cons x xs ih =>
    intro e rest h
    simp only [popMin] at h
    cases hxs : popMin key xs with
    | none =>
      rw [hxs] at h
      simp only [] at h
      injection h with h
      injection h with h1 h2
      subst h1; subst h2
      exact List.Perm.refl _
    | some pr =>
      obtain ⟨e1, rest1⟩ := pr
      rw [hxs] at h
      simp only [] at h
      by_cases hk : key x ≤ key e1
      · rw [if_pos hk] at h
        injection h with h
        injection h with h1 h2
        subst h1; subst h2
        exact List.Perm.refl _
      · rw [if_neg hk] at h
        injection h with h
        injection h with h1 h2
        subst h1; subst h2
        have hp := ih hxs
        exact (hp.cons x).trans (List.Perm.swap _ _ _)

theorem popMin_min {key : Entry → ℤ} :
    ∀ {l : List Entry} {e : Entry} {rest : List Entry},
      popMin key l = some (e, rest) → ∀ x ∈ l, key e ≤ key x := by
  intro l
  induction l with
  | nil => intro e rest h; simp [popMin] at h
  | cons y ys ih =>
    intro e rest h x hx
    simp only [popMin] at h
    cases hys : popMin key ys with
    | none =>
      rw [hys] at h
      simp only [] at h
      injection h with h
      injection h with h1 h2
      subst h1
      have : ys = [] := (popMin_none_iff key ys).mp hys
      subst this
      rcases List.mem_cons.mp hx with h3 | h3
      · rw [h3]
      · cases h3
    | some pr =>
      obtain ⟨e1, rest1⟩ := pr
      rw [hys] at h
      simp only [] at h
      by_cases hk : key y ≤ key e1
      · rw [if_pos hk] at h
        injection h with h
        injection h with h1 h2
        subst h1
        rcases List.mem_cons.mp hx with h3 | h3
        · rw [h3]
        · exact le_trans hk (ih hys x h3)
      · rw [if_neg hk] at h
        injection h with h
        injection h with h1 h2
        subst h1
        rcases List.mem_cons.mp hx with h3 | h3
        · rw [h3]; exact le_of_lt (lt_of_not_le hk)
        · exact ih hys x h3

theorem mem_of_popMin_rest {key : Entry → ℤ} {l : List Entry} {e : Entry}
    {rest : List Entry} (h : popMin key l = some (e, rest)) :
    ∀ x ∈ rest, x ∈ l :=
  fun x hx => (popMin_perm h).mem_iff.mpr (List.mem_cons_of_mem _ hx)

theorem mem_of_popMin_self {key : Entry → ℤ} {l : List Entry} {e : Entry}
    {rest : List Entry} (h : popMin key l = some (e, rest)) : e ∈ l :=
  (popMin_perm h).mem_iff.mpr (List.mem_cons_self _ _)

theorem mem_pushList {G : Graph} {e x : Entry} :
    x ∈ pushList G e ↔
      ∃ ed, ed ∈ G.edges ∧ ed.src = e.v ∧
        x = ⟨ed.dst, e.cost + ed.w, e.path ++ [ed.dst]⟩ := by
  simp only [pushList, List.mem_map, Graph.nbrs, List.mem_filter,
    decide_eq_true_eq]
  constructor
  · rintro ⟨ed, ⟨hed, hsrc⟩, hx⟩
    exact ⟨ed, hed, hsrc, hx.symm⟩
  · rintro ⟨ed, hed, hsrc, hx⟩
    exact ⟨ed, ⟨hed, hsrc⟩, hx.symm⟩

/-- Soundness of the generic loop: a successful result's path is a valid
path from the start to the goal with the reported cost. -/
theorem loop_sound (G : Graph) (goal start : VId) (cfg : LoopCfg) :
    ∀ (fuel : Nat) (frontier : List Entry) (visited : List VId)
      (nExp : Nat) (r : SearchResult),
      (∀ e ∈ frontier, IsPath G start e.v e.path e.cost) →
      loopFuel G goal cfg fuel frontier visited nExp = some r →
      r.success = true → IsPath G start goal r.path r.cost := by
  intro fuel
  induction fuel with
  | zero =>
    intro frontier visited n r _ h
    simp [loopFuel] at h
  | succ m ih =>
    intro frontier visited n r hB h hs
    simp only [loopFuel] at h
    cases hpop : popMin cfg.key frontier with
    | none =>
      rw [hpop] at h
      simp only [] at h
      injection h with h
      rw [← h] at hs
      simp at hs
    | some pr =>
      obtain ⟨e, rest⟩ := pr
      rw [hpop] at h
      simp only [] at h
      have hrest : ∀ x ∈ rest, IsPath G start x.v x.path x.cost :=
        fun x hx => hB x (mem_of_popMin_rest hpop x hx)
      have he : IsPath G start e.v e.path e.cost :=
        hB e (mem_of_popMin_self hpop)
      by_cases hv : e.v ∈ visited
      · rw [if_pos hv] at h
        exact ih rest visited n r hrest h hs
      · rw [if_neg hv] at h
        by_cases hg : e.v = goal
        · rw [if_pos hg] at h
          injection h with h
          rw [← h]
          exact hg ▸ he
        · rw [if_neg hg] at h
          by_cases hd : depthOK cfg.bound e = true
          · rw [if_pos hd] at h
            refine ih _ _ _ _ ?_ h hs
            intro x hx
            have hx2 : x ∈ rest ∨ x ∈ pushList G e := by
              by_cases hl : cfg.lifo <;> simp [hl] at hx <;> tauto
            rcases hx2 with hx2 | hx2
            · exact hrest x hx2
            · obtain ⟨ed, hed, hsrc, hxeq⟩ := mem_pushList.mp hx2
              rw [hxeq]
              exact IsPath.step ed he hed hsrc
          · rw [if_neg hd] at h
            exact ih rest visited n r hrest h hs

/-- A failed loop result always carries an empty path and zero cost. -/
theorem loop_failure (G : Graph) (goal : VId) (cfg : LoopCfg) :
    ∀ (fuel : Nat) (frontier : List Entry) (visited : List VId)
      (nExp : Nat) (r : SearchResult),
      loopFuel G goal cfg fuel frontier visited nExp = some r →
      r.success = false → r.path = [] ∧ r.cost = 0 := by
  intro fuel
  induction fuel with
  | zero =>
    intro frontier visited n r h
    simp [loopFuel] at h
  | succ m ih =>
    intro frontier visited n r h hs
    simp only [loopFuel] at h
    cases hpop : popMin cfg.key frontier with
    | none =>
      rw [hpop] at h
      simp only [] at h
      injection h with h
      rw [← h]
      exact ⟨rfl, rfl⟩
    | some pr =>
      obtain ⟨e, rest⟩ := pr
      rw [hpop] at h
      simp only [] at h
      by_cases hv : e.v ∈ visited
      · rw [if_pos hv] at h
        exact ih _ _ _ _ h hs
      · rw [if_neg hv] at h
        by_cases hg : e.v = goal
        · rw [if_pos hg] at h
          injection h with h
          rw [← h] at hs
          simp at hs
        · rw [if_neg hg] at h
          by_cases hd : depthOK cfg.bound e = true
          · rw [if_pos hd] at h
            exact ih _ _ _ _ h hs
          · rw [if_neg hd] at h
            exact ih _ _ _ _ h hs

theorem unvisitedCount_decrease (G : Graph) {visited : List VId} {a : VId}
    (ha : a ∈ G.ids) (hav : a ∉ visited) :
    unvisitedCount G (a :: visited) < unvisitedCount G visited := by
  have hmem : a ∈ G.ids.dedup.filter (fun x => decide (x ∉ visited)) := by
    simp [List.mem_filter, List.mem_dedup, ha, hav]
  have heq : G.ids.dedup.filter (fun x => decide (x ∉ a :: visited)) =
      (G.ids.dedup.filter (fun x => decide (x ∉ visited))).filter
        (fun x => decide (x ≠ a)) := by
    rw [List.filter_filter]
    apply List.filter_congr
    intro x _
    by_cases h1 : x = a <;> by_cases h2 : x ∈ visited <;> simp [h1, h2]
  unfold unvisitedCount
  rw [heq]
  exact length_filter_lt hmem (by simp)

theorem unvisitedCount_mono (G : Graph) (visited : List VId) (a : VId) :
    unvisitedCount G (a :: visited) ≤ unvisitedCount G visited := by
  have heq : G.ids.dedup.filter (fun x => decide (x ∉ a :: visited)) =
      (G.ids.dedup.filter (fun x => decide (x ∉ visited))).filter
        (fun x => decide (x ≠ a)) := by
    rw [List.filter_filter]
    apply List.filter_congr
    intro x _
    by_cases h1 : x = a <;> by_cases h2 : x ∈ visited <;> simp [h1, h2]
  unfold unvisitedCount
  rw [heq]
  exact List.length_filter_le _ _

theorem pushList_length_le (G : Graph) (e : Entry) :
    (pushList G e).length ≤ G.edges.length := by
  simp only [pushList, List.length_map, Graph.nbrs]
  exact List.length_filter_le _ _

/-- With `searchFuel` much fuel the loop always terminates in a result. -/
theorem loopFuel_isSome (G : Graph) (goal : VId) (cfg : LoopCfg)
    (hdst : ∀ ed ∈ G.edges, ed.dst ∈ G.ids) :
    ∀ (fuel : Nat) (frontier : List Entry) (visited : List VId) (nExp : Nat),
      (∀ e ∈ frontier, e.v ∈ G.ids) →
      frontier.length + unvisitedCount G visited * (G.edges.length + 1) < fuel →
      (loopFuel G goal cfg fuel frontier visited nExp).isSome := by
  intro fuel
  induction fuel with
  | zero =>
    intro frontier visited n hf hm
    omega
  | succ m ih =>
    intro frontier visited n hf hm
    simp only [loopFuel]
    cases hpop : popMin cfg.key frontier with
    | none => simp
    | some pr =>
      obtain ⟨e, rest⟩ := pr
      simp only []
      have hlen : frontier.length = rest.length + 1 := by
        simpa using (popMin_perm hpop).length_eq
      have hrestf : ∀ x ∈ rest, x.v ∈ G.ids :=
        fun x hx => hf x (mem_of_popMin_rest hpop x hx)
      by_cases hv : e.v ∈ visited
      · rw [if_pos hv]
        exact ih rest visited n hrestf (by omega)
      · rw [if_neg hv]
        by_cases hg : e.v = goal
        · rw [if_pos hg]; simp
        · rw [if_neg hg]
          by_cases hd : depthOK cfg.bound e = true
          · rw [if_pos hd]
            have hev : e.v ∈ G.ids := hf e (mem_of_popMin_self hpop)
            have hdec := unvisitedCount_decrease G hev hv
            have hpush := pushList_length_le G e
            have hflen :
                (if cfg.lifo then pushList G e ++ rest
                  else rest ++ pushList G e).length =
                  rest.length + (pushList G e).length := by
              by_cases hl : cfg.lifo <;> simp [hl] <;> omega
            refine ih _ _ _ ?_ ?_
            · intro x hx
              have hx2 : x ∈ rest ∨ x ∈ pushList G e := by
                by_cases hl : cfg.lifo <;> simp [hl] at hx <;> tauto
              rcases hx2 with hx2 | hx2
              · exact hrestf x hx2
              · obtain ⟨ed, hed, _, hxeq⟩ := mem_pushList.mp hx2
                rw [hxeq]
                exact hdst ed hed
            · rw [hflen]
              have hmul : (unvisitedCount G (e.v :: visited) + 1) *
                  (G.edges.length + 1) ≤
                  unvisitedCount G visited * (G.edges.length + 1) :=
                Nat.mul_le_mul_right _ hdec
              rw [Nat.add_mul, Nat.one_mul] at hmul
              generalize hX : unvisitedCount G visited *
                (G.edges.length + 1) = X at hm hmul
              generalize hY : unvisitedCount G (e.v :: visited) *
                (G.edges.length + 1) = Y at hmul
              omega
          · rw [if_neg hd]
            exact ih rest visited n hrestf (by omega)

theorem depthOK_of_inv {G : Graph} {cfg : LoopCfg} {e : Entry}
    {visited : List VId} (hb : cfg.bound = some G.ids.dedup.length)
    (hvi : ∀ v ∈ visited, v ∈ G.ids)
    (hpath : ∃ p1, e.path = p1 ++ [e.v] ∧ p1.Nodup ∧ ∀ x ∈ p1, x ∈ visited)
    (hev : e.v ∈ G.ids) (hv : e.v ∉ visited) :
    depthOK cfg.bound e = true := by
  obtain ⟨p1, hp, hnd, hsub⟩ := hpath
  have hnodup : (p1 ++ [e.v]).Nodup := by
    rw [List.nodup_append]
    refine ⟨hnd, List.nodup_singleton _, ?_⟩
    intro x hx
    simp only [List.mem_singleton]
    intro hxe
    exact hv (hxe ▸ hsub x hx)
  have hcard : (p1 ++ [e.v]).toFinset.card = (p1 ++ [e.v]).length :=
    List.toFinset_card_of_nodup hnodup
  have hsubs : (p1 ++ [e.v]).toFinset ⊆ G.ids.toFinset := by
    intro x hx
    rw [List.mem_toFinset] at hx ⊢
    rcases List.mem_append.mp hx with h1 | h1
    · exact hvi x (hsub x h1)
    · rw [List.mem_singleton.mp h1]; exact hev
  have hlen : (p1 ++ [e.v]).length ≤ G.ids.dedup.length := by
    calc (p1 ++ [e.v]).length = (p1 ++ [e.v]).toFinset.card := hcard.symm
    _ ≤ G.ids.toFinset.card := Finset.card_le_card hsubs
    _ = G.ids.dedup.length := List.card_toFinset _
  simp only [depthOK, hb, decide_eq_true_eq]
  rw [hp]
  simp only [List.length_append, List.length_singleton]
  have hpos : 0 < G.ids.dedup.length :=
    List.length_pos_of_mem (List.mem_dedup.mpr hev)
  simp only [List.length_append, List.length_singleton] at hlen
  omega

/-- Cover lemma: while the goal side of any path is unexpanded, the
frontier witnesses it (the frontier is non-empty). -/
theorem frontier_cover (G : Graph) (start : VId) (frontier : List Entry)
    (visited : List VId)
    (hC : ∀ s ∈ visited, ∀ ed ∈ G.edges, ed.src = s → ed.dst ∉ visited →
      ∃ e ∈ frontier, e.v = ed.dst)
    (hD : start ∉ visited → ∃ e ∈ frontier, e.v = start) :
    ∀ (t : VId) (p : List VId) (c : ℤ), IsPath G start t p c →
      t ∉ visited → ∃ e, e ∈ frontier := by
  intro t p c hp
  induction hp with
  | single hv =>
    intro ht
    obtain ⟨e, he, _⟩ := hD ht
    exact ⟨e, he⟩
  | step ed hp he hsrc ih =>
    intro ht
    by_cases hu : ed.src ∈ visited
    · obtain ⟨e, hef, _⟩ := hC ed.src hu ed he rfl ht
      exact ⟨e, hef⟩
    · exact ih (hsrc ▸ hu)

/-- Completeness of the generic loop: when the goal is reachable and the
bound side condition holds, the loop reports success. -/
theorem loop_complete (G : Graph) (goal start : VId) (cfg : LoopCfg)
    (hdst : ∀ ed ∈ G.edges, ed.dst ∈ G.ids) :
    ∀ (fuel : Nat) (frontier : List Entry) (visited : List VId)
      (nExp : Nat) (r : SearchResult),
      (∀ e ∈ frontier, e.v ∈ G.ids) →
      (∀ s ∈ visited, ∀ ed ∈ G.edges, ed.src = s → ed.dst ∉ visited →
        ∃ e ∈ frontier, e.v = ed.dst) →
      (start ∉ visited → ∃ e ∈ frontier, e.v = start) →
      goal ∉ visited →
      BoundOK cfg G frontier visited →
      Reach G start goal →
      loopFuel G goal cfg fuel frontier visited nExp = some r →
      r.success = true := by
  intro fuel
  induction fuel with
  | zero =>
    intro frontier visited n r _ _ _ _ _ _ h
    simp [loopFuel] at h
  | succ m ih =>
    intro frontier visited n r hf hC hD hGoal hB hR h
    simp only [loopFuel] at h
    cases hpop : popMin cfg.key frontier with
    | none =>
      exfalso
      have hempty : frontier = [] := (popMin_none_iff cfg.key frontier).mp hpop
      obtain ⟨p, c, hpath⟩ := hR
      obtain ⟨e, he⟩ :=
        frontier_cover G start frontier visited hC hD goal p c hpath hGoal
      rw [hempty] at he
      cases he
    | some pr =>
      obtain ⟨e, rest⟩ := pr
      rw [hpop] at h
      simp only [] at h
      have hperm := popMin_perm hpop
      have hin_rest : ∀ x ∈ frontier, x.v ≠ e.v → x ∈ rest := by
        intro x hx hxv
        rcases List.mem_cons.mp (hperm.mem_iff.mp hx) with h1 | h1
        · exact absurd (congrArg Entry.v h1) hxv
        · exact h1
      by_cases hv : e.v ∈ visited
      · rw [if_pos hv] at h
        refine ih rest visited n r ?_ ?_ ?_ hGoal ?_ hR h
        · exact fun x hx => hf x (mem_of_popMin_rest hpop x hx)
        · intro s hs ed hed hsrc hdst
          obtain ⟨e1, he1, he1v⟩ := hC s hs ed hed hsrc hdst
          refine ⟨e1, hin_rest e1 he1 ?_, he1v⟩
          rw [he1v]
          intro hh
          exact hdst (hh ▸ hv)
        · intro hstart
          obtain ⟨e1, he1, he1v⟩ := hD hstart
          refine ⟨e1, hin_rest e1 he1 ?_, he1v⟩
          rw [he1v]
          intro hh
          exact hstart (hh ▸ hv)
        · rcases hB with hB | ⟨hb, hvn, hvi, hfp⟩
          · exact Or.inl hB
          · exact Or.inr ⟨hb, hvn, hvi,
              fun x hx => hfp x (mem_of_popMin_rest hpop x hx)⟩
      · rw [if_neg hv] at h
        by_cases hg : e.v = goal
        · rw [if_pos hg] at h
          injection h with h
          rw [← h]
        · rw [if_neg hg] at h
          have hdOK : depthOK cfg.bound e = true := by
            rcases hB with hB | ⟨hb, hvn, hvi, hfp⟩
            · simp [depthOK, hB]
            · exact depthOK_of_inv hb hvi
                (hfp e (mem_of_popMin_self hpop))
                (hf e (mem_of_popMin_self hpop)) hv
          rw [if_pos hdOK] at h
          have hmemnew : ∀ x, (x ∈ rest ∨ x ∈ pushList G e) →
              x ∈ (if cfg.lifo then pushList G e ++ rest
                else rest ++ pushList G e) := by
            intro x hx
            by_cases hl : cfg.lifo <;> simp [hl] <;> tauto
          refine ih _ (e.v :: visited) (n + 1) r ?_ ?_ ?_ ?_ ?_ hR h
          · intro x hx
            have hx2 : x ∈ rest ∨ x ∈ pushList G e := by
              by_cases hl : cfg.lifo <;> simp [hl] at hx <;> tauto
            rcases hx2 with hx2 | hx2
            · exact hf x (mem_of_popMin_rest hpop x hx2)
            · obtain ⟨ed, hed, _, hxeq⟩ := mem_pushList.mp hx2
              rw [hxeq]
              exact hdst ed hed
          · intro s hs ed hed hsrc hdst
            rcases List.mem_cons.mp hs with h1 | h1
            · refine ⟨⟨ed.dst, e.cost + ed.w, e.path ++ [ed.dst]⟩,
                hmemnew _ (Or.inr ?_), rfl⟩
              rw [mem_pushList]
              exact ⟨ed, hed, by rw [hsrc, h1], rfl⟩
            · obtain ⟨e1, he1, he1v⟩ := hC s h1 ed hed hsrc
                (fun hh => hdst (List.mem_cons_of_mem _ hh))
              refine ⟨e1, hmemnew e1 (Or.inl (hin_rest e1 he1 ?_)), he1v⟩
              rw [he1v]
              intro hh
              exact hdst (hh ▸ List.mem_cons_self _ _)
          · intro hstart
            have hstart2 : start ∉ visited :=
              fun hh => hstart (List.mem_cons_of_mem _ hh)
            have hstartne : start ≠ e.v := by
              intro hh
              exact hstart (hh ▸ List.mem_cons_self _ _)
            obtain ⟨e1, he1, he1v⟩ := hD hstart2
            refine ⟨e1, hmemnew e1 (Or.inl (hin_rest e1 he1 ?_)), he1v⟩
            rw [he1v]
            exact hstartne
          · intro hh
            rcases List.mem_cons.mp hh with h1 | h1
            · exact hg h1.symm
            · exact hGoal h1
          · rcases hB with hB | ⟨hb, hvn, hvi, hfp⟩
            · exact Or.inl hB
            · refine Or.inr ⟨hb, ?_, ?_, ?_⟩
              · exact List.Nodup.cons hv hvn
              · intro v hv2
                rcases List.mem_cons.mp hv2 with h1 | h1
                · exact h1 ▸ hf e (mem_of_popMin_self hpop)
                · exact hvi v h1
              · intro x hx
                have hx2 : x ∈ rest ∨ x ∈ pushList G e := by
                  by_cases hl : cfg.lifo <;> simp [hl] at hx <;> tauto
                rcases hx2 with hx2 | hx2
                · obtain ⟨p1, hp1, hnd1, hsub1⟩ :=
                    hfp x (mem_of_popMin_rest hpop x hx2)
                  exact ⟨p1, hp1, hnd1,
                    fun y hy => List.mem_cons_of_mem _ (hsub1 y hy)⟩
                · obtain ⟨ed, hed, hsrc, hxeq⟩ := mem_pushList.mp hx2
                  obtain ⟨p1, hp1, hnd1, hsub1⟩ :=
                    hfp e (mem_of_popMin_self hpop)
                  refine ⟨p1 ++ [e.v], by rw [hxeq]; simp [hp1], ?_, ?_⟩
                  · rw [List.nodup_append]
                    refine ⟨hnd1, List.nodup_singleton _, ?_⟩
                    intro y hy
                    simp only [List.mem_singleton]
                    intro hye
                    exact hv (hye ▸ hsub1 y hy)
                  · intro y hy
                    rcases List.mem_append.mp hy with h1 | h1
                    · exact List.mem_cons_of_mem _ (hsub1 y h1)
                    · rw [List.mem_singleton.mp h1]
                      exact List.mem_cons_self _ _

/-- Min-pop lemma: with a consistent heuristic, the popped entry's
priority is a lower bound on (cost + heuristic) of every path reaching an
unexpanded vertex.  This is the heart of the UCS/A* optimality argument
(UCS is the zero-heuristic instance). -/
theorem popped_key_le (G : Graph) (start : VId) (h : VId → ℤ)
    (hcons : ∀ ed ∈ G.edges, h ed.src ≤ ed.w + h ed.dst)
    (frontier : List Entry) (visited : List VId) (e : Entry)
    (rest : List Entry)
    (hpop : popMin (fun x => x.cost + h x.v) frontier = some (e, rest))
    (hAC : ∀ s ∈ visited, ∃ cs : ℤ,
      (∀ p c, IsPath G start s p c → cs ≤ c) ∧
      (∀ ed ∈ G.edges, ed.src = s → ed.dst ∉ visited →
        ∃ x ∈ frontier, x.v = ed.dst ∧ x.cost ≤ cs + ed.w))
    (hD : start ∉ visited → ∃ x ∈ frontier, x.v = start ∧ x.cost ≤ 0) :
    ∀ (t : VId) (p : List VId) (c : ℤ), IsPath G start t p c →
      t ∉ visited → e.cost + h e.v ≤ c + h t := by
  have hmin := popMin_min hpop
  intro t p c hp
  induction hp with
  | single hv =>
    intro ht
    obtain ⟨x, hx, hxv, hxc⟩ := hD ht
    have h1 := hmin x hx
    rw [hxv] at h1
    linarith
  | step ed hp he hsrc ih =>
    intro ht
    by_cases hu : ed.src ∈ visited
    · obtain ⟨cs, hopt, hedges⟩ := hAC ed.src hu
      obtain ⟨x, hx, hxv, hxc⟩ := hedges ed he rfl ht
      have h1 := hmin x hx
      rw [hxv] at h1
      have h2 : cs ≤ _ := hopt _ _ (hsrc ▸ hp)
      linarith
    · have h1 := ih (hsrc ▸ hu)
      have h2 := hcons ed he
      rw [hsrc] at h2
      linarith

/-- Optimality of the generic loop for priority key cost-plus-heuristic
with a consistent heuristic: a successful result's cost is minimal over
all valid paths from start to goal. -/
theorem loop_optimal (G : Graph) (goal start : VId) (h : VId → ℤ)
    (hcons : ∀ ed ∈ G.edges, h ed.src ≤ ed.w + h ed.dst) :
    ∀ (fuel : Nat) (frontier : List Entry) (visited : List VId)
      (nExp : Nat) (r : SearchResult),
      (∀ s ∈ visited, ∃ cs : ℤ,
        (∀ p c, IsPath G start s p c → cs ≤ c) ∧
        (∀ ed ∈ G.edges, ed.src = s → ed.dst ∉ visited →
          ∃ x ∈ frontier, x.v = ed.dst ∧ x.cost ≤ cs + ed.w)) →
      (start ∉ visited → ∃ x ∈ frontier, x.v = start ∧ x.cost ≤ 0) →
      loopFuel G goal ⟨fun x => x.cost + h x.v, false, none⟩ fuel
        frontier visited nExp = some r →
      r.success = true →
      ∀ p c, IsPath G start goal p c → r.cost ≤ c := by
  intro fuel
  induction fuel with
  | zero =>
    intro frontier visited n r _ _ hl
    simp [loopFuel] at hl
  | succ m ih =>
    intro frontier visited n r hAC hD hl hs p c hp
    simp only [loopFuel] at hl
    cases hpop : popMin (fun x => x.cost + h x.v) frontier with
    | none =>
      rw [hpop] at hl
      simp only [] at hl
      injection hl with hl
      rw [← hl] at hs
      simp at hs
    | some pr =>
      obtain ⟨e, rest⟩ := pr
      rw [hpop] at hl
      simp only [] at hl
      have hin_rest : ∀ x ∈ frontier, x.v ≠ e.v → x ∈ rest := by
        intro x hx hxv
        rcases List.mem_cons.mp ((popMin_perm hpop).mem_iff.mp hx) with h1 | h1
        · exact absurd (congrArg Entry.v h1) hxv
        · exact h1
      by_cases hv : e.v ∈ visited
      · rw [if_pos hv] at hl
        refine ih rest visited n r ?_ ?_ hl hs p c hp
        · intro s hsv
          obtain ⟨cs, hopt, hedges⟩ := hAC s hsv
          refine ⟨cs, hopt, ?_⟩
          intro ed hed hsrc hdst
          obtain ⟨x, hx, hxv, hxc⟩ := hedges ed hed hsrc hdst
          refine ⟨x, hin_rest x hx ?_, hxv, hxc⟩
          rw [hxv]
          intro hh
          exact hdst (hh ▸ hv)
        · intro hstart
          obtain ⟨x, hx, hxv, hxc⟩ := hD hstart
          refine ⟨x, hin_rest x hx ?_, hxv, hxc⟩
          rw [hxv]
          intro hh
          exact hstart (hh ▸ hv)
      · rw [if_neg hv] at hl
        by_cases hg : e.v = goal
        · rw [if_pos hg] at hl
          injection hl with hl
          have hle := popped_key_le G start h hcons frontier visited e rest
            hpop hAC hD goal p c hp (hg ▸ hv)
          rw [← hg] at hle
          rw [← hl]
          simpa using hle
        · rw [if_neg hg] at hl
          have hdOK : depthOK (none : Option Nat) e = true := rfl
          rw [if_pos hdOK] at hl
          have hpopt : ∀ p1 c1, IsPath G start e.v p1 c1 → e.cost ≤ c1 := by
            intro p1 c1 hp1
            have := popped_key_le G start h hcons frontier visited e rest
              hpop hAC hD e.v p1 c1 hp1 hv
            linarith
          have hmemnew : ∀ x, (x ∈ rest ∨ x ∈ pushList G e) →
              x ∈ rest ++ pushList G e := by
            intro x hx
            simp only [List.mem_append]
            exact hx
          have hl2 : loopFuel G goal
              ⟨fun x => x.cost + h x.v, false, none⟩ m
              (rest ++ pushList G e) (e.v :: visited) (n + 1) = some r := by
            simpa using hl
          refine ih (rest ++ pushList G e) (e.v :: visited) (n + 1) r
            ?_ ?_ hl2 hs p c hp
          · intro s hsv
            rcases List.mem_cons.mp hsv with h1 | h1
            · refine ⟨e.cost, ?_, ?_⟩
              · intro p1 c1 hp1
                exact hpopt p1 c1 (h1 ▸ hp1)
              · intro ed hed hsrc hdst
                refine ⟨⟨ed.dst, e.cost + ed.w, e.path ++ [ed.dst]⟩,
                  hmemnew _ (Or.inr ?_), rfl, le_refl _⟩
                rw [mem_pushList]
                exact ⟨ed, hed, by rw [hsrc, h1], rfl⟩
            · obtain ⟨cs, hopt, hedges⟩ := hAC s h1
              refine ⟨cs, hopt, ?_⟩
              intro ed hed hsrc hdst
              obtain ⟨x, hx, hxv, hxc⟩ := hedges ed hed hsrc
                (fun hh => hdst (List.mem_cons_of_mem _ hh))
              refine ⟨x, hmemnew x (Or.inl (hin_rest x hx ?_)), hxv, hxc⟩
              rw [hxv]
              intro hh
              exact hdst (hh ▸ List.mem_cons_self _ _)
          · intro hstart
            have hstart2 : start ∉ visited :=
              fun hh => hstart (List.mem_cons_of_mem _ hh)
            have hstartne : start ≠ e.v :=
              fun hh => hstart (hh ▸ List.mem_cons_self _ _)
            obtain ⟨x, hx, hxv, hxc⟩ := hD hstart2
            refine ⟨x, hmemnew x (Or.inl (hin_rest x hx ?_)), hxv, hxc⟩
            rw [hxv]
            exact hstartne

theorem initial_measure_lt (G : Graph) :
    1 + unvisitedCount G [] * (G.edges.length + 1) < searchFuel G := by
  have : unvisitedCount G [] = G.ids.dedup.length := by
    simp [unvisitedCount]
  rw [this, searchFuel]
  omega

theorem runLoop_eq (G : Graph) (start goal : VId) (cfg : LoopCfg)
    (hdst : ∀ ed ∈ G.edges, ed.dst ∈ G.ids) (hstart : start ∈ G.ids) :
    ∃ r, loopFuel G goal cfg (searchFuel G) [⟨start, 0, [start]⟩] [] 0 =
      some r ∧ runLoop G start goal cfg = r := by
  have hsome := loopFuel_isSome G goal cfg hdst (searchFuel G)
    [⟨start, 0, [start]⟩] [] 0
    (by intro e he; simp at he; rw [he]; exact hstart)
    (by simpa using initial_measure_lt G)
  cases hl : loopFuel G goal cfg (searchFuel G) [⟨start, 0, [start]⟩] [] 0 with
  | none => rw [hl] at hsome; simp at hsome
  | some r => exact ⟨r, rfl, by simp [runLoop, hl]⟩

theorem runLoop_sound (G : Graph) (start goal : VId) (cfg : LoopCfg)
    (hstart : start ∈ G.ids) :
    (runLoop G start goal cfg).success = true →
      IsPath G start goal (runLoop G start goal cfg).path
        (runLoop G start goal cfg).cost := by
  unfold runLoop
  cases hl : loopFuel G goal cfg (searchFuel G) [⟨start, 0, [start]⟩] [] 0 with
  | none => simp [hl]
  | some r =>
    simp only [hl, Option.getD_some]
    intro hs
    refine loop_sound G goal start cfg (searchFuel G) _ _ _ _ ?_ hl hs
    intro e he
    simp at he
    rw [he]
    exact IsPath.single start hstart

theorem runLoop_failure (G : Graph) (start goal : VId) (cfg : LoopCfg) :
    (runLoop G start goal cfg).success = false →
      (runLoop G start goal cfg).path = [] ∧
        (runLoop G start goal cfg).cost = 0 := by
  unfold runLoop
  cases hl : loopFuel G goal cfg (searchFuel G) [⟨start, 0, [start]⟩] [] 0 with
  | none => simp [hl]
  | some r =>
    simp only [hl, Option.getD_some]
    intro hs
    exact loop_failure G goal cfg (searchFuel G) _ _ _ _ hl hs

theorem runLoop_complete (G : Graph) (start goal : VId) (cfg : LoopCfg)
    (hdst : ∀ ed ∈ G.edges, ed.dst ∈ G.ids) (hstart : start ∈ G.ids)
    (hbound : cfg.bound = none ∨ cfg.bound = some G.ids.dedup.length)
    (hreach : Reach G start goal) :
    (runLoop G start goal cfg).success = true := by
  obtain ⟨r, hl, hr⟩ := runLoop_eq G start goal cfg hdst hstart
  rw [hr]
  refine loop_complete G goal start cfg hdst (searchFuel G) _ _ _ _
    ?_ ?_ ?_ ?_ ?_ hreach hl
  · intro e he; simp at he; rw [he]; exact hstart
  · intro sv hsv; simp at hsv
  · intro _
    exact ⟨⟨start, 0, [start]⟩, by simp, rfl⟩
  · simp
  · rcases hbound with hb | hb
    · exact Or.inl hb
    · refine Or.inr ⟨hb, List.nodup_nil, by simp, ?_⟩
      intro e he
      simp at he
      rw [he]
      exact ⟨[], by simp, List.nodup_nil, by simp⟩

theorem runLoop_optimal (G : Graph) (start goal : VId) (h : VId → ℤ)
    (cfg : LoopCfg) (hkey : cfg.key = fun x => x.cost + h x.v)
    (hlifo : cfg.lifo = false) (hbound : cfg.bound = none)
    (hcons : ∀ ed ∈ G.edges, h ed.src ≤ ed.w + h ed.dst) :
    (runLoop G start goal cfg).success = true →
      ∀ p c, IsPath G start goal p c →
        (runLoop G start goal cfg).cost ≤ c := by
  obtain ⟨k, lf, bd⟩ := cfg
  simp only at hkey hlifo hbound
  subst hkey
  subst hlifo
  subst hbound
  unfold runLoop
  cases hl : loopFuel G goal ⟨fun x => x.cost + h x.v, false, none⟩
      (searchFuel G) [⟨start, 0, [start]⟩] [] 0 with
  | none => simp [hl]
  | some r =>
    simp only [hl, Option.getD_some]
    intro hs p c hp
    refine loop_optimal G goal start h hcons (searchFuel G) _ _ _ _
      ?_ ?_ hl hs p c hp
    · intro sv hsv; simp at hsv
    · intro _
      exact ⟨⟨start, 0, [start]⟩, by simp, rfl, le_refl _⟩

theorem iddfsGo_cases (G : Graph) (start goal : VId) :
    ∀ (tries b : Nat), ∃ b1, iddfsGo G start goal b tries =
      runLoop G start goal (iddfsCfg b1) := by
  intro tries
  induction tries with
  | zero => intro b; exact ⟨b, rfl⟩
  | succ m ih =>
    intro b
    simp only [iddfsGo]
    by_cases hsucc : (runLoop G start goal (iddfsCfg b)).success = true
    · exact ⟨b, by simp [hsucc]⟩
    · obtain ⟨b1, hb1⟩ := ih (b + 1)
      refine ⟨b1, ?_⟩
      simp only [Bool.not_eq_true] at hsucc
      simp [hsucc, hb1]

theorem iddfsGo_success_of (G : Graph) (start goal : VId) :
    ∀ (tries b : Nat),
      (runLoop G start goal (iddfsCfg (b + tries))).success = true →
      (iddfsGo G start goal b tries).success = true := by
  intro tries
  induction tries with
  | zero => intro b hb; simpa [iddfsGo] using hb
  | succ m ih =>
    intro b hb
    simp only [iddfsGo]
    by_cases hsucc : (runLoop G start goal (iddfsCfg b)).success = true
    · simp [hsucc]
    · simp only [Bool.not_eq_true] at hsucc
      simp only [hsucc, if_false]
      exact ih (b + 1) (by rw [show b + 1 + m = b + (m + 1) by omega]; exact hb)

theorem runIddfs_sound (G : Graph) (start goal : VId) (hstart : start ∈ G.ids) :
    (runIddfs G start goal).success = true →
      IsPath G start goal (runIddfs G start goal).path
        (runIddfs G start goal).cost := by
  unfold runIddfs
  obtain ⟨b1, hb1⟩ := iddfsGo_cases G start goal G.ids.dedup.length 0
  rw [hb1]
  exact runLoop_sound G start goal (iddfsCfg b1) hstart

theorem runIddfs_failure (G : Graph) (start goal : VId) :
    (runIddfs G start goal).success = false →
      (runIddfs G start goal).path = [] ∧ (runIddfs G start goal).cost = 0 := by
  unfold runIddfs
  obtain ⟨b1, hb1⟩ := iddfsGo_cases G start goal G.ids.dedup.length 0
  rw [hb1]
  exact runLoop_failure G start goal (iddfsCfg b1)

theorem runIddfs_complete (G : Graph) (start goal : VId)
    (hdst : ∀ ed ∈ G.edges, ed.dst ∈ G.ids) (hstart : start ∈ G.ids)
    (hreach : Reach G start goal) :
    (runIddfs G start goal).success = true := by
  unfold runIddfs
  refine iddfsGo_success_of G start goal G.ids.dedup.length 0 ?_
  refine runLoop_complete G start goal (iddfsCfg (0 + G.ids.dedup.length))
    hdst hstart ?_ hreach
  right
  simp [iddfsCfg]

theorem loopFuel_start_goal (G : Graph) (goal : VId) (cfg : LoopCfg)
    (fuel n : Nat) (e0 : Entry) (he : e0.v = goal) :
    loopFuel G goal cfg (fuel + 1) [e0] [] n =
      some ⟨true, e0.path, e0.cost, n⟩ := by
  simp [loopFuel, popMin, he]

theorem runLoop_self (G : Graph) (s : VId) (cfg : LoopCfg) :
    runLoop G s s cfg = ⟨true, [s], 0, 0⟩ := by
  unfold runLoop
  have hfuel : searchFuel G =
      (G.ids.dedup.length * (G.edges.length + 1) + 1) + 1 := rfl
  rw [hfuel, loopFuel_start_goal G s cfg _ 0 ⟨s, 0, [s]⟩ rfl]
  rfl

theorem runIddfs_self (G : Graph) (s : VId) :
    runIddfs G s s = ⟨true, [s], 0, 0⟩ := by
  unfold runIddfs
  cases hD : G.ids.dedup.length with
  | zero => simp [iddfsGo, runLoop_self]
  | succ n => simp [iddfsGo, runLoop_self]

/-- C6: for every graph, every vertex of the graph and every strategy
(bfs, dfs, ucs, iddfs directly; astar with any accepted heuristic name),
a query whose start equals its goal returns a single-vertex path holding
only that vertex, with total cost 0 and expanded-state count 0 — the goal
is recognized on the initial frontier entry before any expansion. -/
theorem run_self_goal (interp : String → VId → VId → ℤ) (G : Graph)
    (s : VId) (hs : s ∈ G.ids) :
    (∀ strat, strat ≠ Strategy.astar →
      SearchEngine.run interp G s s strat none = .ok ⟨true, [s], 0, 0⟩) ∧
    ∀ name ∈ validHeuristics,
      SearchEngine.run interp G s s .astar (some name) =
        .ok ⟨true, [s], 0, 0⟩ := by
  constructor
  · intro strat hna
    cases strat
    case astar => exact absurd rfl hna
    all_goals simp [SearchEngine.run, hs, runLoop_self, runIddfs_self]
  · intro name hname
    simp [SearchEngine.run, hs, hname, runLoop_self]

/-- Witness for `run_self_goal`: a one-vertex graph, queried with
start = goal = 0, for the UCS strategy and for astar with haversine. -/
theorem run_self_goal_witness :
    SearchEngine.run (fun _ _ _ => 0) ⟨[⟨0, 0, 0⟩], []⟩ 0 0 .ucs none =
      .ok ⟨true, [0], 0, 0⟩ ∧
    SearchEngine.run (fun _ _ _ => 0) ⟨[⟨0, 0, 0⟩], []⟩ 0 0 .astar
      (some "haversine") = .ok ⟨true, [0], 0, 0⟩ :=
  ⟨(run_self_goal (fun _ _ _ => 0) ⟨[⟨0, 0, 0⟩], []⟩ 0 (by decide)).1
      .ucs (by decide),
   (run_self_goal (fun _ _ _ => 0) ⟨[⟨0, 0, 0⟩], []⟩ 0 (by decide)).2
      "haversine" (by simp [validHeuristics])⟩

/-- C4: an unknown start or goal vertex id fails with InvalidVertex
before any search begins, for every strategy and heuristic argument;
while with valid ids and an unreachable goal the engine does not raise:
it returns a normal result with success = false and an empty path — so an
invalid id is always distinguishable from the absence of a route. -/
theorem run_error_semantics (interp : String → VId → VId → ℤ) (G : Graph)
    (s g : VId) (strat : Strategy) (heur : Option String) :
    ((s ∉ G.ids ∨ g ∉ G.ids) →
      SearchEngine.run interp G s g strat heur = .error .InvalidVertex) ∧
    (s ∈ G.ids → g ∈ G.ids → ¬ Reach G s g →
      (strat = .astar → ∃ name, heur = some name ∧ name ∈ validHeuristics) →
      ∃ r, SearchEngine.run interp G s g strat heur = .ok r ∧
        r.success = false ∧ r.path = [] ∧
        SearchEngine.run interp G s g strat heur ≠
          .error .InvalidVertex) := by
  constructor
  · intro hbad
    have hcond : ¬ (s ∈ G.ids ∧ g ∈ G.ids) := by tauto
    simp [SearchEngine.run, hcond]
  · intro hs hg hnr hh
    have hfail : ∀ cfg : LoopCfg, (runLoop G s g cfg).success = false := by
      intro cfg
      cases hsucc : (runLoop G s g cfg).success with
      | false => rfl
      | true =>
        exact absurd ⟨_, _, runLoop_sound G s g cfg hs hsucc⟩ hnr
    have hifail : (runIddfs G s g).success = false := by
      cases hsucc : (runIddfs G s g).success with
      | false => rfl
      | true =>
        exact absurd ⟨_, _, runIddfs_sound G s g hs hsucc⟩ hnr
    cases strat with
    | astar =>
      obtain ⟨name, hname, hmem⟩ := hh rfl
      subst hname
      refine ⟨runLoop G s g
        ⟨fun e => e.cost + interp name e.v g, false, none⟩, ?_, ?_, ?_, ?_⟩
      · simp [SearchEngine.run, hs, hg, hmem]
      · exact hfail _
      · exact (runLoop_failure G s g _ (hfail _)).1
      · simp [SearchEngine.run, hs, hg, hmem]
    | iddfs =>
      refine ⟨runIddfs G s g, ?_, hifail, ?_, ?_⟩
      · simp [SearchEngine.run, hs, hg]
      · exact (runIddfs_failure G s g hifail).1
      · simp [SearchEngine.run, hs, hg]
    | bfs =>
      refine ⟨runLoop G s g (cfgOf .bfs (fun _ => 0)), ?_, hfail _, ?_, ?_⟩
      · simp [SearchEngine.run, hs, hg]
      · exact (runLoop_failure G s g _ (hfail _)).1
      · simp [SearchEngine.run, hs, hg]
    | dfs =>
      refine ⟨runLoop G s g (cfgOf .dfs (fun _ => 0)), ?_, hfail _, ?_, ?_⟩
      · simp [SearchEngine.run, hs, hg]
      · exact (runLoop_failure G s g _ (hfail _)).1
      · simp [SearchEngine.run, hs, hg]
    | ucs =>
      refine ⟨runLoop G s g (cfgOf .ucs (fun _ => 0)), ?_, hfail _, ?_, ?_⟩
      · simp [SearchEngine.run, hs, hg]
      · exact (runLoop_failure G s g _ (hfail _)).1
      · simp [SearchEngine.run, hs, hg]

theorem reach_of_no_edges {G : Graph} (hE : G.edges = []) {s t : VId}
    (h : Reach G s t) : s = t := by
  obtain ⟨p, c, hp⟩ := h
  induction hp with
  | single hv => rfl
  | step ed hp he hsrc ih =>
    rw [hE] at he
    cases he

/-- Witness for `run_error_semantics`: a two-vertex edge-free graph;
vertex 5 is unknown (InvalidVertex) and vertex 1 is disconnected from
vertex 0 (normal failure result with empty path). -/
theorem run_error_semantics_witness :
    SearchEngine.run (fun _ _ _ => 0) ⟨[⟨0, 0, 0⟩, ⟨1, 0, 1⟩], []⟩ 5 1
      .ucs none = .error .InvalidVertex ∧
    ∃ r, SearchEngine.run (fun _ _ _ => 0) ⟨[⟨0, 0, 0⟩, ⟨1, 0, 1⟩], []⟩
        0 1 .ucs none = .ok r ∧ r.success = false ∧ r.path = [] ∧
      SearchEngine.run (fun _ _ _ => 0) ⟨[⟨0, 0, 0⟩, ⟨1, 0, 1⟩], []⟩ 0 1
        .ucs none ≠ .error .InvalidVertex :=
  ⟨(run_error_semantics (fun _ _ _ => 0) ⟨[⟨0, 0, 0⟩, ⟨1, 0, 1⟩], []⟩ 5 1
      .ucs none).1 (by decide),
   (run_error_semantics (fun _ _ _ => 0) ⟨[⟨0, 0, 0⟩, ⟨1, 0, 1⟩], []⟩ 0 1
      .ucs none).2 (by decide) (by decide)
      (fun hr => absurd (reach_of_no_edges rfl hr) (by decide))
      (fun hh => Strategy.noConfusion hh)⟩

theorem ucs_key_eq :
    (cfgOf .ucs (fun _ => 0)).key =
      fun x : Entry => x.cost + (fun _ : VId => (0 : ℤ)) x.v :=
  funext fun x => (add_zero x.cost).symm

/-- C2: for every well-formed graph and reachable (start, goal) pair, UCS
and A* with the (consistent, per §4.2) haversine heuristic both succeed
with paths of equal total cost, and that cost is less than or equal to
the cost of the path returned by each of bfs, dfs and iddfs (which all
succeed as well). -/
theorem ucs_astar_optimal_vs_others (interp : String → VId → VId → ℤ)
    (G : Graph) (s g : VId)
    (hdst : ∀ ed ∈ G.edges, ed.dst ∈ G.ids)
    (hw : ∀ ed ∈ G.edges, 0 ≤ ed.w)
    (hs : s ∈ G.ids) (hg : g ∈ G.ids)
    (hreach : Reach G s g)
    (hcons : ∀ ed ∈ G.edges,
      interp "haversine" ed.src g ≤ ed.w + interp "haversine" ed.dst g) :
    ∃ ru ra, SearchEngine.run interp G s g .ucs none = .ok ru ∧
      SearchEngine.run interp G s g .astar (some "haversine") = .ok ra ∧
      ru.success = true ∧ ra.success = true ∧ ru.cost = ra.cost ∧
      ∀ st, (st = Strategy.bfs ∨ st = Strategy.dfs ∨ st = Strategy.iddfs) →
        ∃ r, SearchEngine.run interp G s g st none = .ok r ∧
          r.success = true ∧ ru.cost ≤ r.cost := by
  have hcons0 : ∀ ed ∈ G.edges,
      (fun _ : VId => (0 : ℤ)) ed.src ≤ ed.w + (fun _ : VId => (0 : ℤ)) ed.dst := by
    intro ed hed
    simpa using hw ed hed
  have hrusucc : (runLoop G s g (cfgOf .ucs (fun _ => 0))).success = true :=
    runLoop_complete G s g _ hdst hs (Or.inl rfl) hreach
  have hruopt := runLoop_optimal G s g (fun _ => 0)
    (cfgOf .ucs (fun _ => 0)) ucs_key_eq rfl rfl hcons0 hrusucc
  have hrupath := runLoop_sound G s g (cfgOf .ucs (fun _ => 0)) hs hrusucc
  have hrasucc : (runLoop G s g
      ⟨fun e => e.cost + interp "haversine" e.v g, false, none⟩).success =
        true :=
    runLoop_complete G s g _ hdst hs (Or.inl rfl) hreach
  have hraopt := runLoop_optimal G s g (fun v => interp "haversine" v g)
    ⟨fun e => e.cost + interp "haversine" e.v g, false, none⟩ rfl rfl rfl
    (fun ed hed => hcons ed hed) hrasucc
  have hrapath := runLoop_sound G s g
    ⟨fun e => e.cost + interp "haversine" e.v g, false, none⟩ hs hrasucc
  refine ⟨runLoop G s g (cfgOf .ucs (fun _ => 0)),
    runLoop G s g ⟨fun e => e.cost + interp "haversine" e.v g, false, none⟩,
    by simp [SearchEngine.run, hs, hg, cfgOf],
    by simp [SearchEngine.run, hs, hg, validHeuristics],
    hrusucc, hrasucc, ?_, ?_⟩
  · exact le_antisymm (hruopt _ _ hrapath) (hraopt _ _ hrupath)
  · intro st hst
    rcases hst with hst | hst | hst
    · subst hst
      have hsucc : (runLoop G s g (cfgOf .bfs (fun _ => 0))).success = true :=
        runLoop_complete G s g _ hdst hs (Or.inl rfl) hreach
      exact ⟨runLoop G s g (cfgOf .bfs (fun _ => 0)),
        by simp [SearchEngine.run, hs, hg, cfgOf], hsucc,
        hruopt _ _ (runLoop_sound G s g _ hs hsucc)⟩
    · subst hst
      have hsucc : (runLoop G s g (cfgOf .dfs (fun _ => 0))).success = true :=
        runLoop_complete G s g _ hdst hs (Or.inl rfl) hreach
      exact ⟨runLoop G s g (cfgOf .dfs (fun _ => 0)),
        by simp [SearchEngine.run, hs, hg, cfgOf], hsucc,
        hruopt _ _ (runLoop_sound G s g _ hs hsucc)⟩
    · subst hst
      have hsucc : (runIddfs G s g).success = true :=
        runIddfs_complete G s g hdst hs hreach
      exact ⟨runIddfs G s g,
        by simp [SearchEngine.run, hs, hg], hsucc,
        hruopt _ _ (runIddfs_sound G s g hs hsucc)⟩

/-- Witness for `ucs_astar_optimal_vs_others`: the single-edge graph
0 →(5) 1 with the zero heuristic. -/
theorem ucs_astar_optimal_vs_others_witness :
    ∃ ru ra, SearchEngine.run (fun _ _ _ => 0)
        ⟨[⟨0, 0, 0⟩, ⟨1, 0, 1⟩], [⟨0, 1, 5⟩]⟩ 0 1 .ucs none = .ok ru ∧
      SearchEngine.run (fun _ _ _ => 0)
        ⟨[⟨0, 0, 0⟩, ⟨1, 0, 1⟩], [⟨0, 1, 5⟩]⟩ 0 1 .astar
          (some "haversine") = .ok ra ∧
      ru.success = true ∧ ra.success = true ∧ ru.cost = ra.cost ∧
      ∀ st, (st = Strategy.bfs ∨ st = Strategy.dfs ∨ st = Strategy.iddfs) →
        ∃ r, SearchEngine.run (fun _ _ _ => 0)
            ⟨[⟨0, 0, 0⟩, ⟨1, 0, 1⟩], [⟨0, 1, 5⟩]⟩ 0 1 st none = .ok r ∧
          r.success = true ∧ ru.cost ≤ r.cost :=
  ucs_astar_optimal_vs_others (fun _ _ _ => 0)
    ⟨[⟨0, 0, 0⟩, ⟨1, 0, 1⟩], [⟨0, 1, 5⟩]⟩ 0 1
    (by decide) (by decide) (by decide) (by decide)
    ⟨[0, 1], 0 + 5,
      IsPath.step ⟨0, 1, 5⟩ (IsPath.single 0 (by decide)) (by decide) rfl⟩
    (by decide)

/-- C5: the heuristic argument is required and validated exactly for the
astar strategy — a missing or unknown name fails with
UnsupportedHeuristic while each accepted name (haversine, euclidean,
manhattan) runs —, the other strategies neither require nor validate it
(their result is independent of the heuristic argument), and the API
client's planRoute request body never contains a heuristic field. -/
theorem heuristic_validation (interp : String → VId → VId → ℤ)
    (G : Graph) (s g : VId) (hs : s ∈ G.ids) (hg : g ∈ G.ids) :
    (SearchEngine.run interp G s g .astar none =
      .error .UnsupportedHeuristic) ∧
    (∀ name, name ∉ validHeuristics →
      SearchEngine.run interp G s g .astar (some name) =
        .error .UnsupportedHeuristic) ∧
    (∀ name ∈ validHeuristics,
      ∃ r, SearchEngine.run interp G s g .astar (some name) = .ok r) ∧
    (∀ strat, strat ≠ Strategy.astar →
      (∀ h1 h2, SearchEngine.run interp G s g strat h1 =
        SearchEngine.run interp G s g strat h2) ∧
      ∃ r, SearchEngine.run interp G s g strat none = .ok r) ∧
    ∀ a b c d : ℤ, ∀ alg : String,
      "heuristic" ∉ (planRouteBody a b c d alg).map Prod.fst := by
  refine ⟨?_, ?_, ?_, ?_, ?_⟩
  · simp [SearchEngine.run, hs, hg]
  · intro name hname
    simp [SearchEngine.run, hs, hg, hname]
  · intro name hname
    refine ⟨runLoop G s g
      ⟨fun e => e.cost + interp name e.v g, false, none⟩, ?_⟩
    simp [SearchEngine.run, hs, hg, hname]
  · intro strat hna
    cases strat
    case astar => exact absurd rfl hna
    case bfs => exact ⟨fun h1 h2 => rfl, ⟨runLoop G s g
      (cfgOf .bfs (fun _ => 0)), by simp [SearchEngine.run, hs, hg]⟩⟩
    case dfs => exact ⟨fun h1 h2 => rfl, ⟨runLoop G s g
      (cfgOf .dfs (fun _ => 0)), by simp [SearchEngine.run, hs, hg]⟩⟩
    case ucs => exact ⟨fun h1 h2 => rfl, ⟨runLoop G s g
      (cfgOf .ucs (fun _ => 0)), by simp [SearchEngine.run, hs, hg]⟩⟩
    case iddfs => exact ⟨fun h1 h2 => rfl, ⟨runIddfs G s g,
      by simp [SearchEngine.run, hs, hg]⟩⟩
  · intro a b c d alg
    simp [planRouteBody]

/-- Witness for `heuristic_validation` on a one-vertex graph. -/
theorem heuristic_validation_witness :
    SearchEngine.run (fun _ _ _ => 0) ⟨[⟨0, 0, 0⟩], []⟩ 0 0 .astar none =
      .error .UnsupportedHeuristic ∧
    SearchEngine.run (fun _ _ _ => 0) ⟨[⟨0, 0, 0⟩], []⟩ 0 0 .astar
      (some "fancy") = .error .UnsupportedHeuristic ∧
    (∃ r, SearchEngine.run (fun _ _ _ => 0) ⟨[⟨0, 0, 0⟩], []⟩ 0 0 .astar
      (some "euclidean") = .ok r) ∧
    SearchEngine.run (fun _ _ _ => 0) ⟨[⟨0, 0, 0⟩], []⟩ 0 0 .bfs
        (some "fancy") =
      SearchEngine.run (fun _ _ _ => 0) ⟨[⟨0, 0, 0⟩], []⟩ 0 0 .bfs none ∧
    "heuristic" ∉ (planRouteBody 1 2 3 4 "astar").map Prod.fst := by
  have h := heuristic_validation (fun _ _ _ => 0) ⟨[⟨0, 0, 0⟩], []⟩ 0 0
    (by decide) (by decide)
  exact ⟨h.1, h.2.1 "fancy" (by simp [validHeuristics]),
    h.2.2.1 "euclidean" (by simp [validHeuristics]),
    (h.2.2.2.1 .bfs (fun hh => Strategy.noConfusion hh)).1 (some "fancy") none,
    h.2.2.2.2 1 2 3 4 "astar"⟩

/-- C9: the request EmergencyView's auto-search sends is the same for
every value of the search-distance input: the extra distance argument is
dropped by the one-parameter registerHospitals operation and the POST
body is always the serialization of a null hospitals field. -/
theorem search_hospitals_ignores_distance (d1 d2 : ℤ) :
    searchHospitalsRequest d1 = searchHospitalsRequest d2 ∧
    searchHospitalsRequest d1 = registerHospitalsReq .null ∧
    (searchHospitalsRequest d1).body = some [("hospitals", JVal.null)] := by
  refine ⟨rfl, rfl, rfl⟩

/-- C10: after any useApi operation completes — returning a value or
throwing — the loading flag is false, for every operation, endpoint and
response outcome, because every operation runs through the shared request
function whose finally block resets it. -/
theorem api_loading_reset (name : String) (outcome : FetchOutcome)
    (st : ApiState) (hname : name ∈ apiOperationNames) :
    runOperation name outcome st =
      request (operationEndpoint name) outcome st ∧
    (runOperation name outcome st).1.loading = false ∧
    ((∃ v, (runOperation name outcome st).2 = .ok v) ∨
      ∃ m, (runOperation name outcome st).2 = .error m) := by
  refine ⟨rfl, ?_, ?_⟩
  · cases outcome with
    | netError m => rfl
    | httpResponse ok errF body =>
      cases ok <;> simp [runOperation, request]
  · cases outcome with
    | netError m => exact Or.inr ⟨m, rfl⟩
    | httpResponse ok errF body =>
      cases ok
      · exact Or.inr ⟨errF.getD "Request failed",
          by simp [runOperation, request]⟩
      · exact Or.inl ⟨body, by simp [runOperation, request]⟩

/-- Witness for `api_loading_reset`: the loadMap operation with a failed
HTTP response. -/
theorem api_loading_reset_witness :
    runOperation "loadMap" (.httpResponse false none .null) ⟨true, none⟩ =
      request (operationEndpoint "loadMap")
        (.httpResponse false none .null) ⟨true, none⟩ ∧
    (runOperation "loadMap" (.httpResponse false none .null)
      ⟨true, none⟩).1.loading = false ∧
    ((∃ v, (runOperation "loadMap" (.httpResponse false none .null)
        ⟨true, none⟩).2 = .ok v) ∨
      ∃ m, (runOperation "loadMap" (.httpResponse false none .null)
        ⟨true, none⟩).2 = .error m) :=
  api_loading_reset "loadMap" (.httpResponse false none .null) ⟨true, none⟩
    (by simp [apiOperationNames])

/-- C8: the Dashboard loadMap in VoronoiMap.vue calls api.getGraphData(),
which is not among the members returned by useApi, so whenever the
api.loadMap call succeeds the call throws, the success branch after it is
unreachable (the success message is never set), the catch branch records
an error message, and graphData is never assigned while mapLoaded has
already been set to true. -/
theorem dashboard_graphdata_unreachable (oracle : String → CallOutcome)
    (addr : String) (st : DashboardState) (haddr : addr ≠ "")
    (v : JVal) (hok : oracle "loadMap" = .ok v) :
    "getGraphData" ∉ useApiOps ∧
    (dashboardLoadMap oracle addr st).mapLoaded = true ∧
    (dashboardLoadMap oracle addr st).graphData = st.graphData ∧
    (dashboardLoadMap oracle addr st).successMessage = none ∧
    (dashboardLoadMap oracle addr st).errorMsg =
      some "Failed to load map: api.getGraphData is not a function" ∧
    (dashboardLoadMap oracle addr st).loading = false := by
  have hmem : "getGraphData" ∉ useApiOps := by simp [useApiOps]
  have hload : "loadMap" ∈ useApiOps := by simp [useApiOps]
  have hcall1 : callApi oracle "loadMap" = .ok v := by
    simp [callApi, hload, hok]
  have hcall2 : callApi oracle "getGraphData" =
      .exn "api.getGraphData is not a function" := by
    simp [callApi, hmem]
  refine ⟨hmem, ?_, ?_, ?_, ?_, ?_⟩ <;>
    simp [dashboardLoadMap, haddr, hcall1, hcall2]

/-- Witness for `dashboard_graphdata_unreachable`: an oracle whose
loadMap call succeeds, on the initial dashboard state. -/
theorem dashboard_graphdata_unreachable_witness :
    "getGraphData" ∉ useApiOps ∧
    (dashboardLoadMap (fun _ => .ok .null) "Guadalajara"
      ⟨false, none, none, false, none, none⟩).mapLoaded = true ∧
    (dashboardLoadMap (fun _ => .ok .null) "Guadalajara"
        ⟨false, none, none, false, none, none⟩).graphData =
      (⟨false, none, none, false, none, none⟩ : DashboardState).graphData ∧
    (dashboardLoadMap (fun _ => .ok .null) "Guadalajara"
      ⟨false, none, none, false, none, none⟩).successMessage = none ∧
    (dashboardLoadMap (fun _ => .ok .null) "Guadalajara"
        ⟨false, none, none, false, none, none⟩).errorMsg =
      some "Failed to load map: api.getGraphData is not a function" ∧
    (dashboardLoadMap (fun _ => .ok .null) "Guadalajara"
      ⟨false, none, none, false, none, none⟩).loading = false :=
  dashboard_graphdata_unreachable (fun _ => .ok .null) "Guadalajara"
    ⟨false, none, none, false, none, none⟩ (by simp) .null rfl

/-- C3 (counterexample): on `cexGraph`, resolution picks facility 1 (the
geometrically nearest in degree space) whose road-network UCS cost from
the query's snapped vertex is 100200, while registered facility 2 (snapped
vertex 1) is reachable at UCS cost 100 — so resolve does not return the
facility of minimal UCS path cost. -/
theorem resolver_not_ucs_optimal :
    FacilityResolver.resolve (fun _ _ _ => 0) cexGraph cexFacilities
        (-1, 0) .ucs none =
      .ok ⟨1, 0, 2, ⟨true, [0, 1, 3, 2], 100200, 3⟩⟩ ∧
    (∃ f ∈ cexFacilities, f.fid = 2 ∧ f.snapped = 1) ∧
    SearchEngine.run (fun _ _ _ => 0) cexGraph 0 1 .ucs none =
      .ok ⟨true, [0, 1], 100, 1⟩ ∧
    (100 : ℤ) < 100200 := by
  exact ⟨by decide, by decide, by decide, by decide⟩

theorem graphPoints_pid_mem {G : Graph} {p : Point}
    (h : p ∈ graphPoints G) : p.pid ∈ G.ids := by
  simp only [graphPoints, List.mem_map] at h
  obtain ⟨v, hv, hp⟩ := h
  rw [← hp]
  exact List.mem_map_of_mem Vertex.vid hv

/-- C3 (amended): with a non-empty facility set over a non-empty graph
(and snapped facility vertices in the graph), resolve succeeds and
returns the facility whose coordinate minimizes the planar degree-space
squared distance to the query among all registered facilities — the
facility chosen by the spatial index — which need not minimize the
road-network UCS path cost. -/
theorem resolve_nearest_in_degree_space (interp : String → VId → VId → ℤ)
    (G : Graph) (fs : List Facility) (q : Coord)
    (hne : fs ≠ []) (hvert : G.vertices ≠ [])
    (hsnap : ∀ f ∈ fs, f.snapped ∈ G.ids) :
    ∃ res, FacilityResolver.resolve interp G fs q .ucs none = .ok res ∧
      ∃ p ∈ facilityPoints fs, res.facility = p.pid ∧
        ∀ p2 ∈ facilityPoints fs, dist2 q p ≤ dist2 q p2 := by
  obtain ⟨f1, fs2, rfl⟩ : ∃ f1 fs2, fs = f1 :: fs2 := by
    cases fs with
    | nil => exact absurd rfl hne
    | cons a b => exact ⟨a, b, rfl⟩
  have hfpne : facilityPoints (f1 :: fs2) ≠ [] := by simp [facilityPoints]
  obtain ⟨fp, hfp, hfpmem, hfpmin⟩ :=
    nearest_build_spec (facilityPoints (f1 :: fs2)) q hfpne
  have hgpne : graphPoints G ≠ [] := by
    cases hv : G.vertices with
    | nil => exact absurd hv hvert
    | cons v vs => simp [graphPoints, hv]
  obtain ⟨qp, hqp, hqpmem, _⟩ := nearest_build_spec (graphPoints G) q hgpne
  have hqv : snapToGraph G q = some qp.pid := by
    simp [snapToGraph, hqp]
  have hqvid : qp.pid ∈ G.ids := graphPoints_pid_mem hqpmem
  have hfind : ∃ f, (f1 :: fs2).find? (fun f => decide (f.fid = fp.pid)) =
      some f := by
    have hsome : ((f1 :: fs2).find?
        (fun f => decide (f.fid = fp.pid))).isSome := by
      rw [List.find?_isSome]
      simp only [facilityPoints, List.mem_map] at hfpmem
      obtain ⟨f0, hf0, hf0p⟩ := hfpmem
      exact ⟨f0, hf0, by simp [← hf0p]⟩
    cases hf : (f1 :: fs2).find? (fun f => decide (f.fid = fp.pid)) with
    | none => rw [hf] at hsome; simp at hsome
    | some f => exact ⟨f, rfl⟩
  obtain ⟨f, hf⟩ := hfind
  have hfmem : f ∈ f1 :: fs2 := List.mem_of_find?_eq_some hf
  have hfid : f.fid = fp.pid := by
    have := List.find?_some hf
    simpa using this
  have hrun : SearchEngine.run interp G qp.pid f.snapped .ucs none =
      .ok (runLoop G qp.pid f.snapped (cfgOf .ucs (fun _ => 0))) := by
    simp [SearchEngine.run, hqvid, hsnap f hfmem, cfgOf]
  refine ⟨⟨f.fid, qp.pid, f.snapped,
    runLoop G qp.pid f.snapped (cfgOf .ucs (fun _ => 0))⟩, ?_,
    fp, hfpmem, by simp [hfid], hfpmin⟩
  simp only [FacilityResolver.resolve, hfp, hqv, hf, hrun]

/-- Witness for `resolve_nearest_in_degree_space` at the concrete
counterexample data. -/
theorem resolve_nearest_in_degree_space_witness :
    ∃ res, FacilityResolver.resolve (fun _ _ _ => 0) cexGraph cexFacilities
        (-1, 0) .ucs none = .ok res ∧
      ∃ p ∈ facilityPoints cexFacilities, res.facility = p.pid ∧
        ∀ p2 ∈ facilityPoints cexFacilities,
          dist2 (-1, 0) p ≤ dist2 (-1, 0) p2 :=
  resolve_nearest_in_degree_space (fun _ _ _ => 0) cexGraph cexFacilities
    (-1, 0) (by decide) (by decide) (by decide)

theorem betterRec_facts (m : Strategy → StrategyMetrics) (b s : Strategy) :
    (betterRec m b s = b ∨ betterRec m b s = s) ∧
    compositeScore m (betterRec m b s) ≤ compositeScore m b ∧
    compositeScore m (betterRec m b s) ≤ compositeScore m s ∧
    (isCostOptimal (betterRec m b s) = false → isCostOptimal b = true →
      compositeScore m (betterRec m b s) < compositeScore m b) ∧
    (isCostOptimal (betterRec m b s) = false → isCostOptimal s = true →
      compositeScore m (betterRec m b s) < compositeScore m s) := by
  unfold betterRec
  by_cases h1 : compositeScore m s < compositeScore m b
  · simp only [if_pos h1]
    refine ⟨Or.inr trivial, le_of_lt h1, le_refl _, ?_, ?_⟩
    · intro _ _; exact h1
    · intro hf ht; rw [ht] at hf; cases hf
  · simp only [if_neg h1]
    by_cases h2 : compositeScore m s = compositeScore m b ∧
        isCostOptimal s = true ∧ isCostOptimal b = false
    · simp only [if_pos h2]
      refine ⟨Or.inr trivial, le_of_eq h2.1, le_refl _, ?_, ?_⟩
      · intro hf _; rw [h2.2.1] at hf; cases hf
      · intro hf ht; rw [ht] at hf; cases hf
    · simp only [if_neg h2]
      have hge : compositeScore m b ≤ compositeScore m s := le_of_not_lt h1
      refine ⟨Or.inl trivial, le_refl _, hge, ?_, ?_⟩
      · intro hf ht; rw [ht] at hf; cases hf
      · intro hf ht
        rcases lt_or_eq_of_le hge with hlt | heq
        · exact hlt
        · exact absurd ⟨heq.symm, ht, hf⟩ h2

theorem foldl_betterRec_facts (m : Strategy → StrategyMetrics) :
    ∀ (l : List Strategy) (b : Strategy),
      (l.foldl (betterRec m) b = b ∨ l.foldl (betterRec m) b ∈ l) ∧
      compositeScore m (l.foldl (betterRec m) b) ≤ compositeScore m b ∧
      (∀ s ∈ l, compositeScore m (l.foldl (betterRec m) b) ≤
        compositeScore m s) ∧
      (isCostOptimal (l.foldl (betterRec m) b) = false →
        isCostOptimal b = true →
        compositeScore m (l.foldl (betterRec m) b) < compositeScore m b) ∧
      (isCostOptimal (l.foldl (betterRec m) b) = false →
        ∀ s ∈ l, isCostOptimal s = true →
          compositeScore m (l.foldl (betterRec m) b) <
            compositeScore m s) := by
  intro l
  induction l with
  | nil =>
    intro b
    refine ⟨Or.inl rfl, le_refl _, by simp, ?_, by simp⟩
    intro hf ht
    simp only [List.foldl_nil] at hf
    rw [ht] at hf
    cases hf
  | cons s l2 ih =>
    intro b
    simp only [List.foldl_cons]
    obtain ⟨hbmem, hbb, hbs, hb4, hb5⟩ := betterRec_facts m b s
    obtain ⟨hmem, hle, hall, h4, h5⟩ := ih (betterRec m b s)
    refine ⟨?_, le_trans hle hbb, ?_, ?_, ?_⟩
    · rcases hmem with h1 | h1
      · rcases hbmem with h2 | h2
        · exact Or.inl (h1.trans h2)
        · exact Or.inr (by rw [h1, h2]; exact List.mem_cons_self _ _)
      · exact Or.inr (List.mem_cons_of_mem _ h1)
    · intro x hx
      rcases List.mem_cons.mp hx with h1 | h1
      · rw [h1]; exact le_trans hle hbs
      · exact hall x h1
    · intro hf ht
      cases hopt : isCostOptimal (betterRec m b s) with
      | true => exact lt_of_lt_of_le (h4 hf hopt) hbb
      | false => exact lt_of_le_of_lt hle (hb4 hopt ht)
    · intro hf x hx ht
      rcases List.mem_cons.mp hx with h1 | h1
      · rw [h1]
        cases hopt : isCostOptimal (betterRec m b s) with
        | true => exact lt_of_lt_of_le (h4 hf hopt) hbs
        | false => exact lt_of_le_of_lt hle (hb5 hopt (h1 ▸ ht))
      · exact h5 hf x h1 ht

/-- C7: the overall recommendation minimizes the weighted composite score
(route distance 0.5, time 0.3, expanded nodes 0.2, normalized 0-1, lower
is better) over the five strategies, and whenever some cost-optimal
strategy (ucs or astar) attains the minimal score the recommendation is
itself cost-optimal. -/
theorem recommended_minimizes (m : Strategy → StrategyMetrics) :
    recommended m ∈ allStrategies ∧
    (∀ s ∈ allStrategies,
      compositeScore m (recommended m) ≤ compositeScore m s) ∧
    ((∃ s ∈ allStrategies, isCostOptimal s = true ∧
        compositeScore m s ≤ compositeScore m (recommended m)) →
      isCostOptimal (recommended m) = true) := by
  obtain ⟨hmem, hle, hall, _, h5⟩ :=
    foldl_betterRec_facts m [Strategy.dfs, .ucs, .iddfs, .astar] .bfs
  have hrec : recommended m =
      List.foldl (betterRec m) Strategy.bfs
        [Strategy.dfs, .ucs, .iddfs, .astar] := rfl
  refine ⟨?_, ?_, ?_⟩
  · rw [hrec]
    rcases hmem with h1 | h1
    · rw [h1]; simp [allStrategies]
    · simp only [allStrategies]
      exact List.mem_cons_of_mem _ h1
  · intro s hs
    simp only [allStrategies] at hs
    rw [hrec]
    rcases List.mem_cons.mp hs with h | h
    · rw [h]; exact hle
    · exact hall s h
  · intro ⟨s, hs, hopt, hscore⟩
    cases hro : isCostOptimal (recommended m) with
    | true => rfl
    | false =>
      exfalso
      simp only [allStrategies] at hs
      have hsne : s ∈ [Strategy.dfs, .ucs, .iddfs, .astar] := by
        rcases List.mem_cons.mp hs with h | h
        · rw [h] at hopt; simp [isCostOptimal] at hopt
        · exact h
      rw [hrec] at hro hscore
      have := h5 hro s hsne hopt
      exact absurd hscore (not_le_of_lt this)

/-- Witness for `recommended_minimizes` at a concrete metric table. -/
theorem recommended_minimizes_witness :
    recommended (fun _ => ⟨1, 1, 1⟩) ∈ allStrategies ∧
    (∀ s ∈ allStrategies,
      compositeScore (fun _ => ⟨1, 1, 1⟩)
          (recommended (fun _ => ⟨1, 1, 1⟩)) ≤
        compositeScore (fun _ => ⟨1, 1, 1⟩) s) ∧
    ((∃ s ∈ allStrategies, isCostOptimal s = true ∧
        compositeScore (fun _ => ⟨1, 1, 1⟩) s ≤
          compositeScore (fun _ => ⟨1, 1, 1⟩)
            (recommended (fun _ => ⟨1, 1, 1⟩))) →
      isCostOptimal (recommended (fun _ => ⟨1, 1, 1⟩)) = true) :=
  recommended_minimizes (fun _ => ⟨1, 1, 1⟩)

end RoutePlanning
